import Mathlib

/-!
Verification of the wolfxl calc engine (Python) against its specification.

The Python source is shallowly embedded: Python ints/floats are modelled as
exact rationals (ℚ), Python strings as Lean `String` (or `List Char` where the
code manipulates them structurally), Python dicts as insertion-ordered
association lists, Python sets as insertion-ordered duplicate-free lists, and
a raised exception as `Except.error`.  Wall-clock reads (`datetime.now`) are
modelled as an explicit clock argument.
-/

set_option maxHeartbeats 1000000
set_option maxRecDepth 8192

namespace Wolfxl

/-- The six interned error codes of `ExcelError` (`_functions.py`). -/
inductive ExcelErrorCode where
  | na
  | valueE
  | refE
  | div0
  | numE
  | nameE
  deriving DecidableEq

/-- Python string code of each error (`ExcelError.code`). -/
def ExcelErrorCode.code : ExcelErrorCode → String
  | .na => "#N/A"
  | .valueE => "#VALUE!"
  | .refE => "#REF!"
  | .div0 => "#DIV/0!"
  | .numE => "#NUM!"
  | .nameE => "#NAME?"

/-- A scalar cell value: the tagged variant {empty, number, string, boolean,
error} of the data model.  Python's separate int and float are both modelled
as exact rationals; `None` is `empty`. -/
inductive CellVal where
  | empty
  | num (q : ℚ)
  | str (s : String)
  | boolean (b : Bool)
  | err (e : ExcelErrorCode)
  deriving DecidableEq

/-- A resolved evaluator value: either a scalar or a `RangeValue`
(`_functions.py`), which carries the flattened cell values in row-major order
together with its 2-D shape.  Cells hold scalars, so range elements are
scalar. -/
inductive Arg where
  | val (v : CellVal)
  | range (vs : List CellVal) (nRows nCols : ℕ)
  deriving DecidableEq

/-- Python `is_error(val)`: an `isinstance(val, ExcelError)` check. -/
def is_error (v : Arg) : Bool :=
  match v with
  | .val (.err _) => true
  | _ => false

/-- Python `first_error(*values)`: the first `ExcelError` instance among the
values, or none (`_functions.py` lines 77-82). -/
def first_error (values : List Arg) : Option ExcelErrorCode :=
  match values with
  | [] => none
  | .val (.err e) :: _ => some e
  | _ :: rest => first_error rest

/-- One scalar's contribution inside `_coerce_numeric`: errors, empty and
strings are skipped, booleans count as 0/1, numbers are kept.  The
`isinstance` checks of the source are mirrored by the constructor match
(Python checks `bool` before `int`/`float` because `bool` subclasses
`int`). -/
def coerceCell (v : CellVal) : List ℚ :=
  match v with
  | .err _ => []
  | .boolean b => [if b then 1 else 0]
  | .num q => [q]
  | .empty => []
  | .str _ => []

/-- Python `_coerce_numeric(values)`: flatten, keeping numeric values only.
`RangeValue` arguments are flattened recursively (their elements are
scalars). -/
def coerce_numeric (args : List Arg) : List ℚ :=
  match args with
  | [] => []
  | .val v :: rest => coerceCell v ++ coerce_numeric rest
  | .range vs _ _ :: rest => (vs.map coerceCell).flatten ++ coerce_numeric rest

/-- Python `_builtin_average(args)`: `sum(nums)/len(nums)`, raising
`ValueError` (modelled as `Except.error`) when no numeric values remain. -/
def builtin_average (args : List Arg) : Except String CellVal :=
  let nums := coerce_numeric args
  if nums.isEmpty then .error "AVERAGE: no numeric values"
  else .ok (.num (nums.sum / (nums.length : ℚ)))

/-- Python `_builtin_min(args)`: `0.0` on no numeric values, else `min`. -/
def builtin_min (args : List Arg) : Except String CellVal :=
  match coerce_numeric args with
  | [] => .ok (.num 0)
  | q :: rest => .ok (.num (rest.foldl min q))

/-- Python `_builtin_max(args)`: `0.0` on no numeric values, else `max`. -/
def builtin_max (args : List Arg) : Except String CellVal :=
  match coerce_numeric args with
  | [] => .ok (.num 0)
  | q :: rest => .ok (.num (rest.foldl max q))

/-- Python `_builtin_mod(args)`: checks arity, coerces, raises on a zero
divisor, else returns `x - y*floor(x/y)` (float arithmetic modelled
exactly over ℚ). -/
def builtin_mod (args : List Arg) : Except String CellVal :=
  if args.length ≠ 2 then .error "MOD requires exactly 2 arguments"
  else
    match coerce_numeric args with
    | [a, b] =>
        if b = 0 then .error "MOD: division by zero"
        else .ok (.num (a - b * ((⌊a / b⌋ : ℤ) : ℚ)))
    | _ => .error "MOD: non-numeric argument"

/-- The exception handling of `WorkbookEvaluator._eval_function` (lines
572-577): the builtin is called and any raised exception is swallowed,
the cell evaluating to empty (`None`). -/
def evalCall (f : List Arg → Except String CellVal) (args : List Arg) : CellVal :=
  match f args with
  | .ok v => v
  | .error _ => .empty

/-- Python `isinstance(x, (int, float))` view of a value, including `bool`
(which subclasses `int`, `True` being 1 and `False` 0). -/
def asNum (x : Arg) : Option ℚ :=
  match x with
  | .val (.num q) => some q
  | .val (.boolean b) => some (if b then 1 else 0)
  | _ => none

/-- Decimal-ish rendering of a rational, standing in for Python's `str` on
numbers.  The exact spelling is immaterial: no theorem below inspects it. -/
def ratRender (q : ℚ) : String :=
  if q.den = 1 then toString q.num else toString q.num ++ "/" ++ toString q.den

/-- Python `str(v)` on a scalar value (`str(None)` never occurs on the paths
modelled; errors render as their code, booleans as True/False). -/
def pyStrCell (v : CellVal) : String :=
  match v with
  | .empty => "None"
  | .num q => ratRender q
  | .str s => s
  | .boolean b => if b then "True" else "False"
  | .err e => e.code

/-- Python `str(x)` on an evaluator value; the `RangeValue` dataclass repr is
abbreviated (no theorem inspects it). -/
def pyStrArg (x : Arg) : String :=
  match x with
  | .val v => pyStrCell v
  | .range _ _ _ => "RangeValue"

/-- Rendering used by the `&` branch of `_binary_op`:
`str(x if x is not None else "")`. -/
def ampRender (x : Arg) : String :=
  match x with
  | .val .empty => ""
  | x => pyStrArg x

/-- The five operators dispatched to `_binary_op` by `_eval_expr`. -/
inductive BinOp where
  | add
  | sub
  | mul
  | div
  | amp
  deriving DecidableEq

/-- Python `_binary_op(left, op, right)` (`_evaluator.py` lines 193-211):
leftmost error propagates; `&` concatenates renderings; non-numeric
operands yield empty; `/` by zero yields `#DIV/0!`. -/
def binary_op (left : Arg) (op : BinOp) (right : Arg) : CellVal :=
  match first_error [left, right] with
  | some e => .err e
  | none =>
    match op with
    | .amp => .str (ampRender left ++ ampRender right)
    | _ =>
      match asNum left, asNum right with
      | some a, some b =>
        match op with
        | .add => .num (a + b)
        | .sub => .num (a - b)
        | .mul => .num (a * b)
        | .div => if b = 0 then .err .div0 else .num (a / b)
        | .amp => .str ""
      | _, _ => .empty

/-- The six comparison operators dispatched to `_compare`. -/
inductive CmpOp where
  | gt
  | lt
  | ge
  | le
  | eq
  | ne
  deriving DecidableEq

/-- Value of a digit run, for the Python `float(str)` model. -/
def digitsVal (ds : List Char) : ℕ :=
  ds.foldl (fun a c => a * 10 + (c.toNat - 48)) 0

/-- Approximate model of Python `float(s)` on strings: optional sign,
`digits[.digits]` with an optional exponent.  Returns none where Python
raises `ValueError`.  (Locale forms, inf/nan and underscores are not
modelled; no theorem depends on this parser.) -/
def parseFloat (s : String) : Option ℚ :=
  let cs := (s.toList.dropWhile (· = ' ')).reverse.dropWhile (· = ' ') |>.reverse
  let (sign, cs) :=
    match cs with
    | '-' :: rest => ((-1 : ℚ), rest)
    | '+' :: rest => ((1 : ℚ), rest)
    | _ => ((1 : ℚ), cs)
  let ip := cs.takeWhile Char.isDigit
  let rest := cs.drop ip.length
  let (fp, rest) :=
    match rest with
    | '.' :: r => (r.takeWhile Char.isDigit, r.drop (r.takeWhile Char.isDigit).length)
    | _ => ([], rest)
  let (ex, rest) :=
    match rest with
    | 'e' :: r | 'E' :: r =>
      match r with
      | '-' :: r2 => (some (-(digitsVal (r2.takeWhile Char.isDigit) : ℤ)),
          r2.drop (r2.takeWhile Char.isDigit).length)
      | '+' :: r2 => (some ((digitsVal (r2.takeWhile Char.isDigit) : ℤ)),
          r2.drop (r2.takeWhile Char.isDigit).length)
      | _ => (some ((digitsVal (r.takeWhile Char.isDigit) : ℤ)),
          r.drop (r.takeWhile Char.isDigit).length)
    | _ => (none, rest)
  if rest ≠ [] then none
  else if ip = [] ∧ fp = [] then none
  else
    let mantissa : ℚ := (digitsVal ip : ℚ) + (digitsVal fp : ℚ) / ((10 : ℚ) ^ fp.length)
    match ex with
    | none => some (sign * mantissa)
    | some e => some (sign * mantissa * (10 : ℚ) ^ e)

/-- The numeric coercion attempted by `_compare`: numbers and booleans pass
through, strings go through `float()`, everything else raises
(`None`). -/
def pyFloat (x : Arg) : Option ℚ :=
  match x with
  | .val (.num q) => some q
  | .val (.boolean b) => some (if b then 1 else 0)
  | .val (.str s) => parseFloat s
  | _ => none

/-- Numeric comparison on rationals. -/
def cmpQ (a b : ℚ) (op : CmpOp) : Bool :=
  match op with
  | .gt => a > b
  | .lt => a < b
  | .ge => a ≥ b
  | .le => a ≤ b
  | .eq => a = b
  | .ne => a ≠ b

/-- Lexicographic string comparison (Python `<` on str). -/
def cmpStr (a b : String) (op : CmpOp) : Bool :=
  match op with
  | .gt => b < a
  | .lt => a < b
  | .ge => ¬ a < b
  | .le => ¬ b < a
  | .eq => a = b
  | .ne => a ≠ b

/-- The string fallback operand of `_compare`:
`str(v).lower() if v is not None else ""`. -/
def strFallback (x : Arg) : String :=
  match x with
  | .val .empty => ""
  | x => (pyStrArg x).toLower

/-- Python `_compare(left, right, op)` (`_evaluator.py` lines 214-262):
leftmost error propagates; both operands are coerced numerically, falling
back to case-insensitive string comparison when coercion fails. -/
def compare (left : Arg) (right : Arg) (op : CmpOp) : CellVal :=
  match first_error [left, right] with
  | some e => .err e
  | none =>
    match pyFloat left, pyFloat right with
    | some a, some b => .boolean (cmpQ a b op)
    | _, _ => .boolean (cmpStr (strFallback left) (strFallback right) op)

/-- Step 4 of `_eval_expr` for a leading `-` (`_evaluator.py` lines 467-471):
the operand is negated when `isinstance(val, (int, float))` — which in
Python includes booleans — and returned unchanged otherwise. -/
def unary_minus (v : Arg) : Arg :=
  match asNum v with
  | some q => .val (.num (-q))
  | none => v

/-- Step 4 of `_eval_expr` for a leading `+` (lines 472-473): the operand's
value is returned directly. -/
def unary_plus (v : Arg) : Arg := v

/-- Python `isinstance(v, (int, float))` on a scalar, with the numeric value
(booleans included, as in the source's criteria lambdas). -/
def asNumCell (v : CellVal) : Option ℚ :=
  match v with
  | .num q => some q
  | .boolean b => some (if b then 1 else 0)
  | _ => none

/-- The predicate body for a bare numeric criterion in `_parse_criteria`:
`isinstance(v, (int, float)) and float(v) == target`. -/
def numericEqMatch (target : ℚ) (v : CellVal) : Bool :=
  match asNumCell v with
  | some q => q = target
  | none => false

/-- The operator alternatives of `_CRITERIA_OP_RE`, tried in the regex's
order `>=, <=, <>, >, <, =`. -/
def critOpSplit (s : String) : Option (CmpOp × String) :=
  if s.startsWith ">=" then some (.ge, s.drop 2)
  else if s.startsWith "<=" then some (.le, s.drop 2)
  else if s.startsWith "<>" then some (.ne, s.drop 2)
  else if s.startsWith ">" then some (.gt, s.drop 1)
  else if s.startsWith "<" then some (.lt, s.drop 1)
  else if s.startsWith "=" then some (.eq, s.drop 1)
  else none

/-- Numeric-threshold predicates of `_parse_criteria`: every operator
requires `isinstance(v, (int, float))` except `<>`, which is satisfied by
every non-numeric value. -/
def critNumPred (op : CmpOp) (t : ℚ) (v : CellVal) : Bool :=
  match op with
  | .ne =>
    match asNumCell v with
    | some q => q ≠ t
    | none => true
  | _ =>
    match asNumCell v with
    | some q => cmpQ q t op
    | none => false

/-- String predicates of `_parse_criteria` with an operator prefix:
`str(v).lower() OP val.lower()`, `None` failing every operator except
`<>`. -/
def critStrPred (op : CmpOp) (t : String) (v : CellVal) : Bool :=
  match v with
  | .empty => op = CmpOp.ne
  | v => cmpStr (pyStrCell v).toLower t op

/-- Recursive `*`/`?` wildcard matcher standing in for `fnmatch` (character
classes are not modelled; no theorem exercises this matcher). -/
def wildMatch : List Char → List Char → Bool
  | [], t => t.isEmpty
  | '*' :: ps, [] => wildMatch ps []
  | '*' :: ps, c :: ts => wildMatch ps (c :: ts) || wildMatch ('*' :: ps) ts
  | '?' :: ps, t =>
    match t with
    | [] => false
    | _ :: ts => wildMatch ps ts
  | p :: ps, t =>
    match t with
    | [] => false
    | c :: ts => p = c && wildMatch ps ts
  termination_by p t => (t.length, p.length)

/-- Python `_parse_criteria(criteria)` applied to a value, i.e.
`_match_criteria` (`_functions.py` lines 512-575).  A numeric criterion
(Python `isinstance(criteria, (int, float))`, so booleans included)
compares numerically; a string criterion goes through the operator
prefix, wildcard, then plain case-insensitive equality branches. -/
def match_criteria (criteria : CellVal) (v : CellVal) : Bool :=
  match asNumCell criteria with
  | some target => numericEqMatch target v
  | none =>
    let critStr := pyStrCell criteria
    match critOpSplit critStr with
    | some (op, valStr) =>
      let valStr := valStr.trim
      match parseFloat valStr with
      | some t => critNumPred op t v
      | none => critStrPred op valStr.toLower v
    | none =>
      if critStr.toList.contains '*' ∨ critStr.toList.contains '?' then
        match v with
        | .empty => false
        | v => wildMatch critStr.toLower.toList (pyStrCell v).toLower.toList
      else
        match v with
        | .empty => false
        | v => (pyStrCell v).toLower = critStr.toLower

/-! ## Date serial model (`_functions.py` lines 1555-1616)

Python's `datetime.date` arithmetic is the proleptic Gregorian calendar;
it is modelled by explicit day counting from the epoch `1899-12-31`
(serial 0).  All functions are faithful on the domain the claims quantify
over (dates with `year ≥ 1900`, serials ≥ 1). -/

/-- Gregorian leap-year test (`calendar.isleap`); Python `%` on nonnegative
ints coincides with `Int.emod`. -/
def isLeap (y : ℤ) : Bool := (y % 4 = 0 ∧ y % 100 ≠ 0) ∨ y % 400 = 0

/-- Python `calendar.monthrange(y, m)[1]`: the number of days of month `m`
of year `y` (months outside 1..12 never reach it; 31 is returned there to
keep the function total). -/
def daysInMonth (y m : ℤ) : ℤ :=
  if m = 2 then (if isLeap y then 29 else 28)
  else if m = 4 ∨ m = 6 ∨ m = 9 ∨ m = 11 then 30
  else 31

/-- Days of a Gregorian year. -/
def daysInYear (y : ℤ) : ℤ := if isLeap y then 366 else 365

/-- Total days of the months `j, j+1, …, j+k-1` of year `y`. -/
def monthSpan (y : ℤ) (j : ℤ) : ℕ → ℤ
  | 0 => 0
  | k + 1 => daysInMonth y j + monthSpan y (j + 1) k

/-- Total days of the years `y, y+1, …, y+k-1`. -/
def yearSpan (y : ℤ) : ℕ → ℤ
  | 0 => 0
  | k + 1 => daysInYear y + yearSpan (y + 1) k

/-- The value of `(date(y, m, d) - date(1899, 12, 31)).days` for
`y ≥ 1900`: whole years since 1900, days of the earlier months, then the
day of month. -/
def daysFromEpoch (y m d : ℤ) : ℤ :=
  yearSpan 1900 (y - 1900).toNat + monthSpan y 1 (m - 1).toNat + d

/-- Python `_date_to_serial(y, m, d)`: month overflow normalised with
Python floor division/modulo, day clamped to the month length, and the
Lotus bug adding 1 for serials ≥ 60. -/
def date_to_serial (y m d : ℤ) : ℤ :=
  let m0 := m - 1
  let y1 := y + m0.fdiv 12
  let m1 := m0.fmod 12 + 1
  let d1 := min d (daysInMonth y1 m1)
  let serial := daysFromEpoch y1 m1 d1
  if 60 ≤ serial then serial + 1 else serial

/-- Find the year containing day offset `r` (0-based from Jan 1 of year
`y`), returning the year and the remaining day-of-year offset. -/
def findYear (y : ℤ) (r : ℕ) : ℤ × ℕ :=
  if _h : r < (daysInYear y).toNat then (y, r)
  else findYear (y + 1) (r - (daysInYear y).toNat)
  termination_by r
  decreasing_by
    have hp : 0 < (daysInYear y).toNat := by unfold daysInYear; split <;> decide
    omega

/-- Find the month containing day-of-year offset `r` (0-based), starting
the scan at month `m`; returns the month and 1-based day. -/
def findMonth (y : ℤ) (m : ℤ) (r : ℕ) : ℤ × ℤ :=
  if _h : r < (daysInMonth y m).toNat then (m, (r : ℤ) + 1)
  else findMonth y (m + 1) (r - (daysInMonth y m).toNat)
  termination_by r
  decreasing_by
    have hp : 0 < (daysInMonth y m).toNat := by
      unfold daysInMonth
      split
      · split <;> decide
      · split <;> decide
    omega

/-- Model of `date(1899, 12, 31) + timedelta(days = n)` for `n ≥ 1`: the
proleptic Gregorian date `n` days after the epoch. -/
def epochPlus (n : ℤ) : ℤ × ℤ × ℤ :=
  let p := findYear 1900 (n - 1).toNat
  let q := findMonth p.1 1 p.2
  (p.1, q.1, q.2)

/-- Python `_serial_to_date(serial)`: serial 60 is the phantom
`1900-02-29`; serials above 60 shed the Lotus offset before the calendar
conversion. -/
def serial_to_date (serial : ℤ) : ℤ × ℤ × ℤ :=
  if serial = 60 then (1900, 2, 29)
  else
    let adjusted := if 60 < serial then serial - 1 else serial
    epochPlus adjusted

/-- A valid (proleptic) Gregorian date: month in 1..12 and day within the
month. -/
def ValidDate (y m d : ℤ) : Prop :=
  1 ≤ m ∧ m ≤ 12 ∧ 1 ≤ d ∧ d ≤ daysInMonth y m

instance (y m d : ℤ) : Decidable (ValidDate y m d) := by
  unfold ValidDate
  infer_instance

/-- A wall-clock sample: the fields of `datetime.datetime.now()` the time
builtins read. -/
structure Clock where
  year : ℤ
  month : ℤ
  day : ℤ
  hour : ℕ
  minute : ℕ
  second : ℕ
  deriving DecidableEq

/-- Python `_builtin_now()` (lines 1719-1724): today's serial plus the
day fraction, read from the wall clock at call time. -/
def builtin_now (c : Clock) : ℚ :=
  (date_to_serial c.year c.month c.day : ℚ) +
    ((c.hour : ℚ) * 3600 + (c.minute : ℚ) * 60 + (c.second : ℚ)) / 86400

/-- Python `_builtin_today()` (lines 1624-1627): today's serial, read from
the wall clock at call time. -/
def builtin_today (c : Clock) : ℤ :=
  date_to_serial c.year c.month c.day

/-! ## Dependency graph and evaluator loop (`_graph.py`, `_evaluator.py`) -/

instance {ε α : Type} [DecidableEq ε] [DecidableEq α] : DecidableEq (Except ε α) :=
  fun a b =>
  match a, b with
  | .ok x, .ok y =>
    if h : x = y then .isTrue (by rw [h]) else .isFalse (by simp [h])
  | .error x, .error y =>
    if h : x = y then .isTrue (by rw [h]) else .isFalse (by simp [h])
  | .ok _, .error _ => .isFalse (by simp)
  | .error _, .ok _ => .isFalse (by simp)

/-- Lookup in an insertion-ordered association list (a Python dict read). -/
def dictGet {α : Type} (m : List (String × α)) (k : String) : Option α :=
  match m with
  | [] => none
  | (k2, v) :: rest => if k2 = k then some v else dictGet rest k

/-- A Python dict write: replace the value in place when the key exists,
append the pair otherwise. -/
def dictSet {α : Type} (m : List (String × α)) (k : String) (v : α) : List (String × α) :=
  match m with
  | [] => [(k, v)]
  | (k2, w) :: rest => if k2 = k then (k2, v) :: rest else (k2, w) :: dictSet rest k v

/-- A fragment of the formula expression language in parsed form: the
constructs the determinism and operator claims exercise.  The string-level
recursive-descent parser is orthogonal to those claims and is not
modelled. -/
inductive Expr where
  | lit (v : CellVal)
  | ref (r : String)
  | binop (op : BinOp) (l r : Expr)
  | cmp (op : CmpOp) (l r : Expr)
  | neg (e : Expr)
  | pos (e : Expr)
  | now
  | today
  deriving DecidableEq

/-- The expression evaluator (`_eval_expr`) on the parsed fragment: cell
references read the value store (`None` when absent), binary and
comparison operators dispatch to `_binary_op` and `_compare`, leading
`-`/`+` to the unary step, and `NOW()`/`TODAY()` read the wall clock. -/
def evalE (store : List (String × Arg)) (clock : Clock) : Expr → Arg
  | .lit v => .val v
  | .ref r => (dictGet store r).getD (.val .empty)
  | .binop op l r => .val (binary_op (evalE store clock l) op (evalE store clock r))
  | .cmp op l r => .val (compare (evalE store clock l) (evalE store clock r) op)
  | .neg e => unary_minus (evalE store clock e)
  | .pos e => unary_plus (evalE store clock e)
  | .now => .val (.num (builtin_now clock))
  | .today => .val (.num (builtin_today clock))

/-- Whether a formula consults the wall clock (`NOW`/`TODAY`). -/
def usesClock : Expr → Bool
  | .lit _ => false
  | .ref _ => false
  | .binop _ l r => usesClock l || usesClock r
  | .cmp _ l r => usesClock l || usesClock r
  | .neg e => usesClock e
  | .pos e => usesClock e
  | .now => true
  | .today => true

/-- The cell keys an expression reads from the value store (the `.ref`
leaves `_eval_expr` resolves against the workbook values). -/
def readsOf : Expr → List String
  | .lit _ => []
  | .ref r => [r]
  | .binop _ l r => readsOf l ++ readsOf r
  | .cmp _ l r => readsOf l ++ readsOf r
  | .neg e => readsOf e
  | .pos e => readsOf e
  | .now => []
  | .today => []

/-- The `DependencyGraph` state (`_graph.py`): forward edges
`dependencies` (cell → cells it reads), reverse edges `dependents`
(cell → cells that read it) and the formula per cell, all
insertion-ordered as Python dicts and set insertion are. -/
structure DepGraph where
  dependencies : List (String × List String)
  dependents : List (String × List String)
  formulas : List (String × Expr)
  deriving DecidableEq

/-- The `DependencyGraph()` constructor: three empty mappings. -/
def DepGraph.empty : DepGraph := ⟨[], [], []⟩

/-- Python `set(refs)` built by insertion: first occurrences kept in
order. -/
def dedupAux (seen : List String) : List String → List String
  | [] => []
  | x :: rest => if x ∈ seen then dedupAux seen rest else x :: dedupAux (x :: seen) rest

/-- Duplicate-free insertion-ordered view of a reference list. -/
def dedup (l : List String) : List String := dedupAux [] l

/-- The loop body of `add_formula` over the reference list: ensure the set
`dependents[r]` exists and add the registering cell to it. -/
def addDependent (cell_ref : String) (dd : List (String × List String))
    (r : String) : List (String × List String) :=
  let cur := (dictGet dd r).getD []
  dictSet dd r (if cell_ref ∈ cur then cur else cur ++ [cell_ref])

/-- Python `DependencyGraph.add_formula(cell_ref, formula, current_sheet)`
(lines 30-40).  `refs` stands for `all_references(formula, current_sheet)`,
the parser's duplicate-free extracted reference list (the regex extractor
itself is not modelled; theorems quantify over the extracted list).  The
formula is recorded, the cell's forward edges are replaced, and the cell
is added to the reverse-edge set of every referenced cell — edges from a
previous registration of the same cell are not removed. -/
def add_formula (g : DepGraph) (cell_ref : String) (formula : Expr)
    (refs : List String) : DepGraph :=
  { formulas := dictSet g.formulas cell_ref formula
    dependencies := dictSet g.dependencies cell_ref (dedup refs)
    dependents := refs.foldl (addDependent cell_ref) g.dependents }

/-- A graph built by a sequence of `add_formula` registrations (cell,
formula, extracted references) starting from the empty graph. -/
def buildGraph (calls : List (String × Expr × List String)) : DepGraph :=
  calls.foldl (fun g c => add_formula g c.1 c.2.1 c.2.2) DepGraph.empty

/-- Forward edges of a cell (`self.dependencies.get(cell, set())`). -/
def depsOf (g : DepGraph) (c : String) : List String :=
  (dictGet g.dependencies c).getD []

/-- Reverse edges of a cell (`self.dependents.get(cell, set())`). -/
def dependentsOf (g : DepGraph) (c : String) : List String :=
  (dictGet g.dependents c).getD []

/-- The formula cells, in dict insertion order (`self.formulas.keys()`). -/
def formulaCells (g : DepGraph) : List String := g.formulas.map (·.1)

/-- In-degree initialisation of `topological_order`:
`len(deps & formula_cells)` per formula cell. -/
def initDeg (g : DepGraph) (fc : List String) : List (String × ℤ) :=
  fc.map (fun c => (c, (((depsOf g c).filter (· ∈ fc)).length : ℤ)))

/-- The inner loop of `topological_order`: decrement the in-degree of each
formula-cell member of the popped cell's dependents set, enqueueing those
that reach zero. -/
def processDeps (fc : List String) (deps : List String) (deg : List (String × ℤ))
    (queue : List String) : List (String × ℤ) × List String :=
  match deps with
  | [] => (deg, queue)
  | d :: rest =>
    if d ∈ fc then
      let v := (dictGet deg d).getD 0 - 1
      let deg2 := dictSet deg d v
      let queue2 := if v = 0 then queue ++ [d] else queue
      processDeps fc rest deg2 queue2
    else processDeps fc rest deg queue

/-- Fuel bound for the Kahn loop: pending queue length plus the positive
part of the in-degrees.  Each iteration strictly decreases it. -/
def potential (deg : List (String × ℤ)) : ℕ := (deg.map (fun p => p.2.toNat)).sum

/-- Kahn's worklist loop, fuelled; `topological_order` supplies fuel that
provably suffices (the loop never exhausts it). -/
def kahnLoop (g : DepGraph) (fc : List String) :
    ℕ → List String → List (String × ℤ) → List String → List String
  | 0, _, _, order => order
  | _ + 1, [], _, order => order
  | fuel + 1, c :: qrest, deg, order =>
    let p := processDeps fc (dependentsOf g c) deg qrest
    kahnLoop g fc fuel p.2 p.1 (order ++ [c])

/-- Python `DependencyGraph.topological_order()` (lines 42-80): Kahn's
algorithm restricted to formula cells; when the produced order is shorter
than the formula-cell count the source raises `ValueError` listing the
remaining cells, modelled as `Except.error` carrying them. -/
def topological_order (g : DepGraph) : Except (List String) (List String) :=
  let fc := formulaCells g
  if fc.isEmpty then .ok []
  else
    let deg0 := initDeg g fc
    let queue0 := fc.filter (fun c => (dictGet deg0 c).getD 0 = 0)
    let order := kahnLoop g fc (queue0.length + potential deg0) queue0 deg0 []
    if order.length ≠ fc.length then .error (fc.filter (· ∉ order))
    else .ok order

/-- Acyclicity of the formula-cell subgraph in its finite characterisation:
every nonempty subset of the formula cells has a member with no
formula-cell dependency inside the subset.  (Equivalent, on finite graphs,
to the absence of a dependency cycle.) -/
def cycleFree (g : DepGraph) : Bool :=
  (formulaCells g).sublists.all (fun S =>
    S.isEmpty || S.any (fun c =>
      (depsOf g c).all (fun d => decide ¬ (d ∈ formulaCells g ∧ d ∈ S))))

/-- In-degree of one cell within the formula-cell subgraph:
`len(deps & formula_cells)` (the forward lists are duplicate-free, being
Python sets). -/
def indegOf (g : DepGraph) (fc : List String) (c : String) : ℤ :=
  (((depsOf g c).filter (· ∈ fc)).length : ℤ)

/-- Exact forward/reverse consistency over the recorded edges: every
forward edge has its reverse edge and vice versa.  Holds when every cell's
formula is registered at most once; re-registration can leave stale
reverse edges. -/
def consistentB (g : DepGraph) : Bool :=
  (g.dependencies.all fun p => p.2.all fun v => decide (p.1 ∈ (dictGet g.dependents v).getD [])) &&
  (g.dependents.all fun p => p.2.all fun u => decide (p.1 ∈ (dictGet g.dependencies u).getD []))

/-- An output order respects dependencies: every formula-cell dependency of
an ordered cell appears strictly earlier. -/
def OrderRespects (g : DepGraph) (order : List String) : Prop :=
  ∀ (i : ℕ) (hi : i < order.length), ∀ v, v ∈ depsOf g (order.get ⟨i, hi⟩) →
    v ∈ formulaCells g → v ∈ order.take i

/-- Loop invariant of Kahn's algorithm as implemented by
`topological_order`: in-degrees track the dependencies not yet output,
the queue holds exactly the unprocessed zero-degree cells, and the output
so far respects dependencies. -/
structure KahnInv (g : DepGraph) (fc : List String) (deg : List (String × ℤ))
    (queue order : List String) : Prop where
  keys : deg.map (·.1) = fc
  degEq : ∀ c ∈ fc, dictGet deg c
      = some (indegOf g fc c - ((order.filter (· ∈ depsOf g c)).length : ℤ))
  orderSub : ∀ c ∈ order, c ∈ fc
  orderNd : order.Nodup
  queueSub : ∀ c ∈ queue, c ∈ fc
  queueNd : queue.Nodup
  queueDisj : ∀ c ∈ queue, c ∉ order
  queueZero : ∀ c ∈ queue, dictGet deg c = some 0
  zeroIn : ∀ c ∈ fc, dictGet deg c = some 0 → c ∈ order ∨ c ∈ queue
  orderNonpos : ∀ c ∈ order, ∀ z, dictGet deg c = some z → z ≤ 0
  orderOK : ∀ (i : ℕ) (hi : i < order.length), ∀ v,
      v ∈ depsOf g (order.get ⟨i, hi⟩) → v ∈ fc → v ∈ order.take i

/-- The weak loop invariant of Kahn's algorithm, independent of any
forward/reverse edge consistency: stored in-degrees only ever decrease,
cells already output or queued sit at a non-positive count, and a cell is
enqueued only on the unique downward crossing to zero — enough for the
output to list each formula cell at most once on every graph, stale
reverse edges included. -/
structure KahnWeakInv (fc : List String) (deg : List (String × ℤ))
    (queue order : List String) : Prop where
  keys : deg.map (·.1) = fc
  orderSub : ∀ c ∈ order, c ∈ fc
  orderNd : order.Nodup
  queueSub : ∀ c ∈ queue, c ∈ fc
  queueNd : queue.Nodup
  queueDisj : ∀ c ∈ queue, c ∉ order
  queueNonpos : ∀ c ∈ queue, ∀ z, dictGet deg c = some z → z ≤ 0
  orderNonpos : ∀ c ∈ order, ∀ z, dictGet deg c = some z → z ≤ 0

/-- What holds of the list produced by the Kahn loop: it is a
duplicate-free list of formula cells respecting dependencies, and every
formula cell left out has a formula-cell dependency that is also left
out. -/
structure KahnResult (g : DepGraph) (fc : List String) (R : List String) : Prop where
  sub : ∀ c ∈ R, c ∈ fc
  nd : R.Nodup
  ok : ∀ (i : ℕ) (hi : i < R.length), ∀ v,
      v ∈ depsOf g (R.get ⟨i, hi⟩) → v ∈ fc → v ∈ R.take i
  blocked : ∀ c ∈ fc, c ∉ R → ∃ d, d ∈ depsOf g c ∧ d ∈ fc ∧ d ∉ R

/-- The write-back loop of `WorkbookEvaluator.calculate` (lines 342-346):
each formula cell in order is evaluated against the current store, the
result written back and recorded. -/
def calcLoop (g : DepGraph) (clock : Clock) :
    List String → List (String × Arg) → List (String × Arg) →
    List (String × Arg) × List (String × Arg)
  | [], store, results => (store, results)
  | c :: rest, store, results =>
    let e := (dictGet g.formulas c).getD (.lit .empty)
    let v := evalE store clock e
    calcLoop g clock rest (dictSet store c v) (results ++ [(c, v)])

/-- Python `WorkbookEvaluator.calculate()` (lines 331-348), the wall clock
made an explicit input: topological order, then evaluate each formula
cell and write back, returning the updated store and the results. -/
def calculate (g : DepGraph) (store : List (String × Arg)) (clock : Clock) :
    Except (List String) (List (String × Arg) × List (String × Arg)) :=
  match topological_order g with
  | .error missing => .error missing
  | .ok order => .ok (calcLoop g clock order store [])

/-- Example graph: cell `S!A1` registered first reading `S!C1`, then
re-registered reading `S!B1`; `S!B1` reads `S!A1`; `S!C1` reads nothing.
The current formula-cell graph has the cycle `S!A1 ↔ S!B1`, and the stale
reverse edge `dependents["S!C1"] ∋ S!A1` left by the re-registration. -/
def gCycleStale : DepGraph :=
  add_formula (add_formula (add_formula (add_formula DepGraph.empty
    "S!A1" (.lit .empty) ["S!C1"])
    "S!A1" (.lit .empty) ["S!B1"])
    "S!B1" (.lit .empty) ["S!A1"])
    "S!C1" (.lit .empty) []

/-- Example graph: `S!B1` registered reading `S!A1`, then re-registered
reading `S!C1` instead. -/
def gReRegistered : DepGraph :=
  add_formula (add_formula DepGraph.empty
    "S!B1" (.lit .empty) ["S!A1"])
    "S!B1" (.lit .empty) ["S!C1"]

/-- Example graph: `S!B1` reads `S!A1` and `S!A1` reads nothing; each cell
registered once, so forward and reverse edges invert each other. -/
def gLinear : DepGraph :=
  add_formula (add_formula DepGraph.empty
    "S!B1" (.lit .empty) ["S!A1"])
    "S!A1" (.lit .empty) []

/-- Workbook whose single formula is `=NOW()`. -/
def gNow : DepGraph := add_formula DepGraph.empty "Sheet1!A1" Expr.now []

/-- Workbook whose single formula is the literal 5. -/
def gLit : DepGraph :=
  add_formula DepGraph.empty "Sheet1!A1" (Expr.lit (.num 5)) []

/-- Midnight, 1900-01-01: the wall clock during a first `calculate` call. -/
def clkA : Clock := ⟨1900, 1, 1, 0, 0, 0⟩

/-- Midnight, 1900-01-02: the wall clock during a second call, one day
later. -/
def clkB : Clock := ⟨1900, 1, 2, 0, 0, 0⟩

/-! ## Range expansion (`_parser.py` lines 119-153)

Python strings are modelled as `List Char` here, so that the splitting the
source performs is structural.  `a1_to_rowcol`, `rowcol_to_a1` and
`column_letter` live in `wolfxl._utils`, which is not among the provided
sources; they are modelled from the spec (section 4.1). -/

/-- Character strings of the range-expansion model. -/
abbrev Str := List Char

/-- The apostrophe character stripped from quoted sheet names. -/
def quoteChar : Char := Char.ofNat 39

/-- Modelled from the spec (section 4.1; `wolfxl._utils` is not in the
provided sources): bijective base-26 column letters, `A=1 … Z=26,
AA=27 …`. -/
def column_letter (n : ℕ) : Str :=
  if n = 0 then []
  else column_letter ((n - 1) / 26) ++ [Char.ofNat (64 + ((n - 1) % 26 + 1))]
  termination_by n
  decreasing_by
    have : (n - 1) / 26 ≤ n - 1 := Nat.div_le_self _ _
    omega

/-- Modelled from the spec: `column_index`, the base-26 value of a
column-letter run. -/
def column_index (s : Str) : ℕ := s.foldl (fun a c => a * 26 + (c.toNat - 64)) 0

/-- Decimal rendering of a row number (Python `str(row)`). -/
def natChars (n : ℕ) : Str := (toString n).toList

/-- An uppercase A-Z letter. -/
def isUpperAZ (c : Char) : Bool := decide ('A' ≤ c) && decide (c ≤ 'Z')

/-- A decimal digit. -/
def isDigit09 (c : Char) : Bool := decide ('0' ≤ c) && decide (c ≤ '9')

/-- Modelled from the spec: `a1_to_rowcol(a1) → (row, col)`, failing with
`InvalidReference` unless the input matches `[A-Z]+[0-9]+` (the letter run
followed by the digit run, nothing else). -/
def a1_to_rowcol (a1 : Str) : Except String (ℕ × ℕ) :=
  if a1.takeWhile isUpperAZ = [] ∨ a1.drop (a1.takeWhile isUpperAZ).length = [] ∨
      ¬ (a1.drop (a1.takeWhile isUpperAZ).length).all isDigit09 then
    .error "InvalidReference"
  else
    .ok (digitsVal (a1.drop (a1.takeWhile isUpperAZ).length),
         column_index (a1.takeWhile isUpperAZ))

/-- Modelled from the spec: `rowcol_to_a1(row, col)`, column letters then
the decimal row. -/
def rowcol_to_a1 (row col : ℕ) : Str := column_letter col ++ natChars row

/-- Python `s.split(c)`: split at every occurrence of `c`. -/
def splitAll (c : Char) : Str → List Str
  | [] => [[]]
  | x :: rest =>
    if x = c then [] :: splitAll c rest
    else
      match splitAll c rest with
      | [] => [[x]]
      | p :: ps => (x :: p) :: ps

/-- Python `s.rsplit(c, 1)` when `c` occurs in `s`: the parts before and
after the last occurrence. -/
def rsplitOnce (c : Char) (s : Str) : Str × Str :=
  let after := s.reverse.takeWhile (fun x => x != c)
  ((s.reverse.drop (after.length + 1)).reverse, after.reverse)

/-- Python `s.strip("'")`: all leading and trailing apostrophes removed. -/
def stripQuotes (s : Str) : Str :=
  ((s.dropWhile (fun c => c == quoteChar)).reverse.dropWhile (fun c => c == quoteChar)).reverse

/-- Python `expand_range(range_ref)` (`_parser.py` lines 119-153): the
optional sheet prefix is split off at the last `!` and unquoted; the two
corners are parsed after `$` removal; rows and columns are normalised by
min/max; the cells are generated row-major, the sheet prefix re-attached
to each when present. -/
def expand_range (range_ref : Str) : Except String (List Str) :=
  let hasSheet := range_ref.contains '!'
  let sheet : Option Str :=
    if hasSheet then some (stripQuotes (rsplitOnce '!' range_ref).1) else none
  let ref_part := if hasSheet then (rsplitOnce '!' range_ref).2 else range_ref
  match splitAll ':' ref_part with
  | [p1, p2] =>
    match a1_to_rowcol (p1.filter (fun c => c != '$')),
          a1_to_rowcol (p2.filter (fun c => c != '$')) with
    | .ok (sr, sc), .ok (er, ec) =>
      let rlo := min sr er
      let rhi := max sr er
      let clo := min sc ec
      let chi := max sc ec
      .ok ((List.range' rlo (rhi + 1 - rlo)).flatMap (fun r =>
        (List.range' clo (chi + 1 - clo)).map (fun c =>
          match sheet with
          | some sh => sh ++ '!' :: rowcol_to_a1 r c
          | none => rowcol_to_a1 r c)))
    | .error e, _ => .error e
    | _, .error e => .error e
  | _ => .error "Invalid range"

/-! ## Theorems -/

/-- C3, counterexample.  The claim says `AVERAGE` with no numeric values
evaluates to the `#DIV/0!` error; at the concrete argument list
`["x"]` (a string, so no numeric values after flattening) the evaluated
result is empty (`None`): `_builtin_average` raises `ValueError` and
`_eval_function` swallows the exception. -/
theorem c3_average_empty_counterexample :
    coerce_numeric [Arg.val (.str "x")] = [] ∧
    evalCall builtin_average [Arg.val (.str "x")] = CellVal.empty ∧
    evalCall builtin_average [Arg.val (.str "x")] ≠ CellVal.err .div0 := by
  refine ⟨rfl, rfl, ?_⟩
  decide

/-- C3, amended: when the flattened arguments contain no numeric values,
`AVERAGE` evaluates to empty (its internal `ValueError` is swallowed by
`_eval_function`), while `MIN` and `MAX` evaluate to 0. -/
theorem c3_empty_aggregates (args : List Arg) (h : coerce_numeric args = []) :
    evalCall builtin_average args = CellVal.empty ∧
    evalCall builtin_min args = CellVal.num 0 ∧
    evalCall builtin_max args = CellVal.num 0 := by
  refine ⟨?_, ?_, ?_⟩ <;> simp [evalCall, builtin_average, builtin_min, builtin_max, h]

/-- C3, witness: the amended theorem applied at the argument list
`[errors and strings only]`. -/
theorem c3_empty_aggregates_witness :
    coerce_numeric [Arg.val (.str "x"), Arg.val (.err .na), Arg.val .empty] = [] ∧
    (evalCall builtin_average [Arg.val (.str "x"), Arg.val (.err .na), Arg.val .empty] = CellVal.empty ∧
     evalCall builtin_min [Arg.val (.str "x"), Arg.val (.err .na), Arg.val .empty] = CellVal.num 0 ∧
     evalCall builtin_max [Arg.val (.str "x"), Arg.val (.err .na), Arg.val .empty] = CellVal.num 0) :=
  ⟨rfl, c3_empty_aggregates _ rfl⟩

/-- C4, counterexample.  The claim says `MOD` with a zero divisor evaluates
to the `#DIV/0!` error; at `MOD(1, 0)` the evaluated result is empty
(`None`): `_builtin_mod` raises `ValueError("MOD: division by zero")` and
`_eval_function` swallows it. -/
theorem c4_mod_zero_counterexample :
    evalCall builtin_mod [Arg.val (.num 1), Arg.val (.num 0)] = CellVal.empty ∧
    evalCall builtin_mod [Arg.val (.num 1), Arg.val (.num 0)] ≠ CellVal.err .div0 := by
  exact ⟨rfl, by decide⟩

/-- C4, amended: for numeric `x`, `y` with `y ≠ 0`, `MOD(x, y)` evaluates to
`x - y*⌊x/y⌋`, which carries the sign of the divisor; with a zero divisor
the evaluated result is empty (`None`), not `#DIV/0!`. -/
theorem c4_mod (x y : ℚ) (hy : y ≠ 0) :
    evalCall builtin_mod [Arg.val (.num x), Arg.val (.num y)] =
      CellVal.num (x - y * ((⌊x / y⌋ : ℤ) : ℚ)) ∧
    (0 < y → 0 ≤ x - y * ((⌊x / y⌋ : ℤ) : ℚ) ∧ x - y * ((⌊x / y⌋ : ℤ) : ℚ) < y) ∧
    (y < 0 → y < x - y * ((⌊x / y⌋ : ℤ) : ℚ) ∧ x - y * ((⌊x / y⌋ : ℤ) : ℚ) ≤ 0) ∧
    evalCall builtin_mod [Arg.val (.num x), Arg.val (.num 0)] = CellVal.empty := by
  have hxy : y * (x / y) = x := by field_simp
  have hr : x - y * ((⌊x / y⌋ : ℤ) : ℚ) = y * Int.fract (x / y) := by
    rw [Int.fract, mul_sub, hxy]
  have hf0 : 0 ≤ Int.fract (x / y) := Int.fract_nonneg _
  have hf1 : Int.fract (x / y) < 1 := Int.fract_lt_one _
  refine ⟨?_, ?_, ?_, rfl⟩
  · simp [evalCall, builtin_mod, coerce_numeric, coerceCell, hy]
  · intro hpos
    rw [hr]
    constructor
    · exact mul_nonneg hpos.le hf0
    · calc y * Int.fract (x / y) < y * 1 := by
            exact mul_lt_mul_of_pos_left hf1 hpos
        _ = y := mul_one y
  · intro hneg
    rw [hr]
    constructor
    · nlinarith [hf0, hf1, hneg]
    · exact mul_nonpos_of_nonpos_of_nonneg hneg.le hf0

/-- C4, witness: the amended theorem applied at `MOD(7, 3)`. -/
theorem c4_mod_witness :
    (3 : ℚ) ≠ 0 ∧
    evalCall builtin_mod [Arg.val (.num 7), Arg.val (.num 3)] =
      CellVal.num ((7 : ℚ) - 3 * ((⌊(7 : ℚ) / 3⌋ : ℤ) : ℚ)) :=
  ⟨by norm_num, (c4_mod 7 3 (by norm_num)).1⟩

/-- C5: in `_binary_op` and `_compare`, an error operand propagates — the
left operand's error when it is an error, otherwise the right's; when
both are errors the left one wins (`first_error` scans left to right). -/
theorem c5_error_propagation (e : ExcelErrorCode) (x : Arg)
    (hx : is_error x = false) (op : BinOp) (cop : CmpOp) :
    binary_op (Arg.val (.err e)) op x = CellVal.err e ∧
    binary_op x op (Arg.val (.err e)) = CellVal.err e ∧
    compare (Arg.val (.err e)) x cop = CellVal.err e ∧
    compare x (Arg.val (.err e)) cop = CellVal.err e ∧
    (∀ e2, binary_op (Arg.val (.err e)) op (Arg.val (.err e2)) = CellVal.err e) ∧
    (∀ e2, compare (Arg.val (.err e)) (Arg.val (.err e2)) cop = CellVal.err e) := by
  have h2 : binary_op x op (Arg.val (.err e)) = CellVal.err e := by
    match x, hx with
    | .val .empty, _ => rfl
    | .val (.num _), _ => rfl
    | .val (.str _), _ => rfl
    | .val (.boolean _), _ => rfl
    | .range _ _ _, _ => rfl
  have h4 : compare x (Arg.val (.err e)) cop = CellVal.err e := by
    match x, hx with
    | .val .empty, _ => rfl
    | .val (.num _), _ => rfl
    | .val (.str _), _ => rfl
    | .val (.boolean _), _ => rfl
    | .range _ _ _, _ => rfl
  exact ⟨rfl, h2, rfl, h4, fun e2 => rfl, fun e2 => rfl⟩

/-- C5, witness: the propagation theorem applied with `#DIV/0!` and the
non-error operand 3, for `+` and `>`. -/
theorem c5_error_propagation_witness :
    is_error (Arg.val (.num 3)) = false ∧
    binary_op (Arg.val (.err .div0)) .add (Arg.val (.num 3)) = CellVal.err .div0 ∧
    binary_op (Arg.val (.num 3)) .add (Arg.val (.err .div0)) = CellVal.err .div0 :=
  ⟨rfl, (c5_error_propagation .div0 (Arg.val (.num 3)) rfl .add .gt).1,
    (c5_error_propagation .div0 (Arg.val (.num 3)) rfl .add .gt).2.1⟩

/-- C9, counterexample.  The claim says `-X` returns a boolean operand
unchanged; in the source `isinstance(True, (int, float))` holds (Python
`bool` subclasses `int`), so `-TRUE` is negated to the number -1. -/
theorem c9_unary_minus_boolean_counterexample :
    unary_minus (Arg.val (.boolean true)) = Arg.val (.num (-1)) ∧
    unary_minus (Arg.val (.boolean true)) ≠ Arg.val (.boolean true) := by
  exact ⟨rfl, by decide⟩

/-- C9, amended: `-X` returns string, error, range and empty operands
unchanged, negates numbers, and negates booleans numerically
(`-TRUE = -1`, `-FALSE = 0`); `+X` returns every operand's value
unchanged. -/
theorem c9_unary_operators :
    (∀ s, unary_minus (Arg.val (.str s)) = Arg.val (.str s)) ∧
    (∀ e, unary_minus (Arg.val (.err e)) = Arg.val (.err e)) ∧
    (∀ vs nr nc, unary_minus (Arg.range vs nr nc) = Arg.range vs nr nc) ∧
    unary_minus (Arg.val .empty) = Arg.val .empty ∧
    (∀ q, unary_minus (Arg.val (.num q)) = Arg.val (.num (-q))) ∧
    (∀ b, unary_minus (Arg.val (.boolean b)) =
      Arg.val (.num (-(if b then 1 else 0)))) ∧
    (∀ v, unary_plus v = v) :=
  ⟨fun _ => rfl, fun _ => rfl, fun _ _ _ => rfl, rfl, fun _ => rfl, fun _ => rfl,
    fun _ => rfl⟩

/-- C10, counterexample.  The claim says a bare numeric criterion matches
`v` only if `v` is itself stored as a number; the criterion 1 also
matches the boolean `TRUE` (Python `isinstance(True, (int, float))` holds
and `float(True) == 1.0`). -/
theorem c10_numeric_criteria_counterexample :
    match_criteria (.num 1) (.boolean true) = true ∧
    CellVal.boolean true ≠ CellVal.num 1 ∧
    match_criteria (.num 1) (.str "1") = false := by
  exact ⟨rfl, by decide, rfl⟩

/-- C10, amended: a bare numeric criterion `c` matches `v` exactly when `v`
is stored as a number equal to `c` or as a boolean whose numeric value
(`TRUE = 1`, `FALSE = 0`) equals `c`; in particular a string — including a
string rendering of the same number — never matches. -/
theorem c10_numeric_criteria (c : ℚ) (v : CellVal) :
    (match_criteria (.num c) v = true ↔
      (∃ q, v = CellVal.num q ∧ q = c) ∨
      (∃ b, v = CellVal.boolean b ∧ (if b then (1 : ℚ) else 0) = c)) ∧
    (∀ s, match_criteria (.num c) (.str s) = false) := by
  constructor
  · cases v with
    | empty => simp [match_criteria, asNumCell, numericEqMatch]
    | num q => simp [match_criteria, asNumCell, numericEqMatch]
    | str s => simp [match_criteria, asNumCell, numericEqMatch]
    | boolean b => simp [match_criteria, asNumCell, numericEqMatch]
    | err e => simp [match_criteria, asNumCell, numericEqMatch]
  · intro s
    rfl

/-! ### Date-serial lemmas (C2) -/

theorem daysInMonth_pos (y m : ℤ) : 0 < daysInMonth y m := by
  unfold daysInMonth
  split
  · split <;> norm_num
  · split <;> norm_num

theorem daysInYear_pos (y : ℤ) : 0 < daysInYear y := by
  unfold daysInYear
  split <;> norm_num

theorem monthSpan_zero (y j : ℤ) : monthSpan y j 0 = 0 := rfl

theorem monthSpan_succ (y j : ℤ) (k : ℕ) :
    monthSpan y j (k + 1) = daysInMonth y j + monthSpan y (j + 1) k := rfl

theorem yearSpan_succ (y : ℤ) (k : ℕ) :
    yearSpan y (k + 1) = daysInYear y + yearSpan (y + 1) k := rfl

theorem monthSpan_nonneg (y : ℤ) (k : ℕ) : ∀ j : ℤ, 0 ≤ monthSpan y j k := by
  induction k with
  | zero => intro j; simp [monthSpan_zero]
  | succ k ih =>
    intro j
    have h1 := daysInMonth_pos y j
    have h2 := ih (j + 1)
    rw [monthSpan_succ]
    omega

theorem yearSpan_nonneg (k : ℕ) : ∀ y : ℤ, 0 ≤ yearSpan y k := by
  induction k with
  | zero => intro y; simp [yearSpan]
  | succ k ih =>
    intro y
    have h1 := daysInYear_pos y
    have h2 := ih (y + 1)
    rw [yearSpan_succ]
    omega

theorem monthSpan_split (y : ℤ) (a b : ℕ) : ∀ j : ℤ,
    monthSpan y j (a + b) = monthSpan y j a + monthSpan y (j + a) b := by
  induction a with
  | zero => intro j; simp [monthSpan_zero]
  | succ a ih =>
    intro j
    have e1 : a + 1 + b = (a + b) + 1 := by omega
    rw [e1, monthSpan_succ, ih (j + 1), monthSpan_succ]
    have e2 : j + 1 + (a : ℤ) = j + ((a : ℕ) + 1 : ℕ) := by push_cast; ring
    rw [e2]
    ring

theorem daysInYear_eq_monthSpan (y : ℤ) : daysInYear y = monthSpan y 1 12 := by
  have h12 : monthSpan y 1 12 =
      daysInMonth y 1 + (daysInMonth y 2 + (daysInMonth y 3 + (daysInMonth y 4 +
      (daysInMonth y 5 + (daysInMonth y 6 + (daysInMonth y 7 + (daysInMonth y 8 +
      (daysInMonth y 9 + (daysInMonth y 10 + (daysInMonth y 11 +
      daysInMonth y 12)))))))))) := by
    show monthSpan y 1 (11 + 1) = _
    rw [monthSpan_succ]
    show _ + monthSpan y 2 (10 + 1) = _
    rw [monthSpan_succ]
    show _ + (_ + monthSpan y 3 (9 + 1)) = _
    rw [monthSpan_succ]
    show _ + (_ + (_ + monthSpan y 4 (8 + 1))) = _
    rw [monthSpan_succ]
    show _ + (_ + (_ + (_ + monthSpan y 5 (7 + 1)))) = _
    rw [monthSpan_succ]
    show _ + (_ + (_ + (_ + (_ + monthSpan y 6 (6 + 1))))) = _
    rw [monthSpan_succ]
    show _ + (_ + (_ + (_ + (_ + (_ + monthSpan y 7 (5 + 1)))))) = _
    rw [monthSpan_succ]
    show _ + (_ + (_ + (_ + (_ + (_ + (_ + monthSpan y 8 (4 + 1))))))) = _
    rw [monthSpan_succ]
    show _ + (_ + (_ + (_ + (_ + (_ + (_ + (_ + monthSpan y 9 (3 + 1)))))))) = _
    rw [monthSpan_succ]
    show _ + (_ + (_ + (_ + (_ + (_ + (_ + (_ + (_ + monthSpan y 10 (2 + 1))))))))) = _
    rw [monthSpan_succ]
    show _ + (_ + (_ + (_ + (_ + (_ + (_ + (_ + (_ + (_ + monthSpan y 11 (1 + 1)))))))))) = _
    rw [monthSpan_succ]
    show _ + (_ + (_ + (_ + (_ + (_ + (_ + (_ + (_ + (_ + (_ + monthSpan y 12 (0 + 1))))))))))) = _
    rw [monthSpan_succ, monthSpan_zero]
    norm_num
  rw [h12]
  unfold daysInYear daysInMonth
  cases h : isLeap y <;> norm_num

theorem findYear_spec (k : ℕ) : ∀ (y : ℤ) (r : ℕ),
    r < (daysInYear (y + k)).toNat →
    findYear y ((yearSpan y k).toNat + r) = (y + k, r) := by
  induction k with
  | zero =>
    intro y r hr
    have h0 : yearSpan y 0 = 0 := rfl
    simp only [Nat.cast_zero, add_zero] at hr
    rw [findYear, dif_pos]
    · rw [h0]
      simp
    · rw [h0]
      simpa using hr
  | succ k ih =>
    intro y r hr
    have hds := daysInYear_pos y
    have hys := yearSpan_nonneg k (y + 1)
    have htn : (yearSpan y (k + 1)).toNat
        = (daysInYear y).toNat + (yearSpan (y + 1) k).toNat := by
      rw [yearSpan_succ]
      omega
    rw [htn, findYear, dif_neg]
    · have harg : (daysInYear y).toNat + (yearSpan (y + 1) k).toNat + r
          - (daysInYear y).toNat = (yearSpan (y + 1) k).toNat + r := by omega
      rw [harg]
      have hcast : y + 1 + (k : ℤ) = y + ((k : ℕ) + 1 : ℕ) := by push_cast; ring
      have hr2 : r < (daysInYear (y + 1 + k)).toNat := by
        rw [hcast]
        exact hr
      rw [ih (y + 1) r hr2, hcast]
    · omega

theorem findMonth_spec (y : ℤ) (k : ℕ) : ∀ (j : ℤ) (r : ℕ),
    r < (daysInMonth y (j + k)).toNat →
    findMonth y j ((monthSpan y j k).toNat + r) = (j + k, (r : ℤ) + 1) := by
  induction k with
  | zero =>
    intro j r hr
    have h0 : monthSpan y j 0 = 0 := rfl
    simp only [Nat.cast_zero, add_zero] at hr
    rw [findMonth, dif_pos]
    · rw [h0]
      simp
    · rw [h0]
      simpa using hr
  | succ k ih =>
    intro j r hr
    have hdm := daysInMonth_pos y j
    have hms := monthSpan_nonneg y k (j + 1)
    have htn : (monthSpan y j (k + 1)).toNat
        = (daysInMonth y j).toNat + (monthSpan y (j + 1) k).toNat := by
      rw [monthSpan_succ]
      omega
    rw [htn, findMonth, dif_neg]
    · have harg : (daysInMonth y j).toNat + (monthSpan y (j + 1) k).toNat + r
          - (daysInMonth y j).toNat = (monthSpan y (j + 1) k).toNat + r := by omega
      rw [harg]
      have hcast : j + 1 + (k : ℤ) = j + ((k : ℕ) + 1 : ℕ) := by push_cast; ring
      have hr2 : r < (daysInMonth y (j + 1 + k)).toNat := by
        rw [hcast]
        exact hr
      rw [ih (j + 1) r hr2, hcast]
    · omega

theorem dayOfYear_le (y m d : ℤ) (hv : ValidDate y m d) :
    monthSpan y 1 (m - 1).toNat + d ≤ daysInYear y := by
  obtain ⟨hm1, hm2, hd1, hd2⟩ := hv
  have h12 := daysInYear_eq_monthSpan y
  have hsplit : monthSpan y 1 12
      = monthSpan y 1 (m - 1).toNat + monthSpan y (1 + (m - 1).toNat) (12 - (m - 1).toNat) := by
    rw [← monthSpan_split]
    congr 1
    omega
  have hone : (12 - (m - 1).toNat - 1) + 1 = 12 - (m - 1).toNat := by omega
  have hrest : monthSpan y (1 + (m - 1).toNat) (12 - (m - 1).toNat)
      = daysInMonth y (1 + (m - 1).toNat)
        + monthSpan y (1 + (m - 1).toNat + 1) (12 - (m - 1).toNat - 1) := by
    conv_lhs => rw [← hone]
    rw [monthSpan_succ]
  have hmm : (1 : ℤ) + ((m - 1).toNat : ℤ) = m := by omega
  have hd2A : d ≤ daysInMonth y (1 + ((m - 1).toNat : ℤ)) := by
    rw [hmm]
    exact hd2
  have hnn := monthSpan_nonneg y (12 - (m - 1).toNat - 1) (1 + ((m - 1).toNat : ℤ) + 1)
  omega

theorem daysFromEpoch_pos (y m d : ℤ) (hv : ValidDate y m d) :
    1 ≤ daysFromEpoch y m d := by
  obtain ⟨hm1, hm2, hd1, hd2⟩ := hv
  have h1 := yearSpan_nonneg (y - 1900).toNat 1900
  have h2 := monthSpan_nonneg y (m - 1).toNat 1
  unfold daysFromEpoch
  omega

theorem epochPlus_daysFromEpoch (y m d : ℤ) (hy : 1900 ≤ y) (hv : ValidDate y m d) :
    epochPlus (daysFromEpoch y m d) = (y, m, d) := by
  obtain ⟨hm1, hm2, hd1, hd2⟩ := hv
  have hys := yearSpan_nonneg (y - 1900).toNat 1900
  have hms := monthSpan_nonneg y (m - 1).toNat 1
  have hdoy := dayOfYear_le y m d ⟨hm1, hm2, hd1, hd2⟩
  have hdy := daysInYear_pos y
  set r : ℕ := (monthSpan y 1 (m - 1).toNat + d - 1).toNat with hrdef
  have hn1 : (daysFromEpoch y m d - 1).toNat = (yearSpan 1900 (y - 1900).toNat).toNat + r := by
    unfold daysFromEpoch
    omega
  have hycast : (1900 : ℤ) + ((y - 1900).toNat : ℤ) = y := by omega
  have hrlt : r < (daysInYear ((1900 : ℤ) + (y - 1900).toNat)).toNat := by
    rw [hycast]
    omega
  have hfy : findYear 1900 ((yearSpan 1900 (y - 1900).toNat).toNat + r)
      = ((1900 : ℤ) + (y - 1900).toNat, r) := findYear_spec _ 1900 r hrlt
  rw [hycast] at hfy
  set s : ℕ := (d - 1).toNat with hsdef
  have hr2 : r = (monthSpan y 1 (m - 1).toNat).toNat + s := by omega
  have hmcast : (1 : ℤ) + ((m - 1).toNat : ℤ) = m := by omega
  have hslt : s < (daysInMonth y ((1 : ℤ) + (m - 1).toNat)).toNat := by
    rw [hmcast]
    omega
  have hfm : findMonth y 1 ((monthSpan y 1 (m - 1).toNat).toNat + s)
      = ((1 : ℤ) + (m - 1).toNat, (s : ℤ) + 1) := findMonth_spec y _ 1 s hslt
  rw [hmcast] at hfm
  have hfm2 : findMonth y 1 r = (m, d) := by
    rw [hr2, hfm]
    have : (s : ℤ) + 1 = d := by omega
    rw [this]
  unfold epochPlus
  rw [hn1, hfy]
  simp only
  rw [hfm2]

/-- C2: for every valid Gregorian date with `y ≥ 1900` (other than the
nonexistent 1900-02-29, which is no valid date), converting to an Excel
serial and back is the identity; serial 60 converts back to 1900-02-29;
serials ≥ 61 carry the Lotus +1 offset over the true day count from the
epoch, which `_serial_to_date` undoes and `_date_to_serial` adds. -/
theorem c2_date_serial_roundtrip (y m d : ℤ) (hy : 1900 ≤ y) (hv : ValidDate y m d)
    (hq : ¬(y = 1900 ∧ m = 2 ∧ d = 29)) :
    serial_to_date (date_to_serial y m d) = (y, m, d) ∧
    serial_to_date 60 = (1900, 2, 29) ∧
    (∀ s : ℤ, 61 ≤ s → serial_to_date s = epochPlus (s - 1)) ∧
    (60 ≤ daysFromEpoch y m d → date_to_serial y m d = daysFromEpoch y m d + 1) ∧
    (daysFromEpoch y m d < 60 → date_to_serial y m d = daysFromEpoch y m d) := by
  obtain ⟨hm1, hm2, hd1, hd2⟩ := hv
  have hnorm : date_to_serial y m d
      = (if 60 ≤ daysFromEpoch y m d then daysFromEpoch y m d + 1 else daysFromEpoch y m d) := by
    have hz : (m - 1).fdiv 12 = 0 := by
      rw [Int.fdiv_eq_ediv _ (by norm_num : (0 : ℤ) ≤ 12)]
      exact Int.ediv_eq_zero_of_lt (by omega) (by omega)
    have hzm : (m - 1).fmod 12 + 1 = m := by
      rw [Int.fmod_eq_of_lt (by omega : (0 : ℤ) ≤ m - 1) (by omega : m - 1 < 12)]
      omega
    have hunf : date_to_serial y m d
        = (if 60 ≤ daysFromEpoch (y + (m - 1).fdiv 12) ((m - 1).fmod 12 + 1)
              (min d (daysInMonth (y + (m - 1).fdiv 12) ((m - 1).fmod 12 + 1)))
           then daysFromEpoch (y + (m - 1).fdiv 12) ((m - 1).fmod 12 + 1)
              (min d (daysInMonth (y + (m - 1).fdiv 12) ((m - 1).fmod 12 + 1))) + 1
           else daysFromEpoch (y + (m - 1).fdiv 12) ((m - 1).fmod 12 + 1)
              (min d (daysInMonth (y + (m - 1).fdiv 12) ((m - 1).fmod 12 + 1)))) := rfl
    rw [hunf, hz, hzm, add_zero, min_eq_left hd2]
  have hpos := daysFromEpoch_pos y m d ⟨hm1, hm2, hd1, hd2⟩
  have hround := epochPlus_daysFromEpoch y m d hy ⟨hm1, hm2, hd1, hd2⟩
  refine ⟨?_, rfl, ?_, ?_, ?_⟩
  · rw [hnorm]
    by_cases h60 : 60 ≤ daysFromEpoch y m d
    · rw [if_pos h60]
      unfold serial_to_date
      rw [if_neg (by omega), if_pos (by omega)]
      simpa using hround
    · rw [if_neg h60]
      unfold serial_to_date
      rw [if_neg (by omega), if_neg (by omega)]
      exact hround
  · intro s hs
    unfold serial_to_date
    rw [if_neg (by omega), if_pos (by omega)]
  · intro h60
    rw [hnorm, if_pos h60]
  · intro h60
    rw [hnorm, if_neg (by omega)]

/-- C2, witness: the roundtrip theorem applied at 1900-03-01 (the first
date after the Lotus gap; its serial is 61). -/
theorem c2_date_serial_roundtrip_witness :
    (1900 : ℤ) ≤ 1900 ∧ ValidDate 1900 3 1 ∧ ¬((1900 : ℤ) = 1900 ∧ (3 : ℤ) = 2 ∧ (1 : ℤ) = 29) ∧
    serial_to_date (date_to_serial 1900 3 1) = (1900, 3, 1) ∧
    date_to_serial 1900 3 1 = 61 :=
  ⟨le_refl _, by decide, by decide,
    (c2_date_serial_roundtrip 1900 3 1 (le_refl _) (by decide) (by decide)).1,
    by decide⟩

/-! ### Dictionary and reverse-edge lemmas (C6, C1) -/

theorem dictGet_dictSet_self {α : Type} (m : List (String × α)) (k : String) (v : α) :
    dictGet (dictSet m k v) k = some v := by
  induction m with
  | nil => simp [dictSet, dictGet]
  | cons p rest ih =>
    obtain ⟨k2, w⟩ := p
    by_cases h : k2 = k
    · simp [dictSet, dictGet, h]
    · simp [dictSet, dictGet, h, ih]

theorem dictGet_dictSet_ne {α : Type} (m : List (String × α)) (k k2 : String) (v : α)
    (h : k ≠ k2) : dictGet (dictSet m k v) k2 = dictGet m k2 := by
  induction m with
  | nil => simp [dictSet, dictGet, h]
  | cons p rest ih =>
    obtain ⟨k3, w⟩ := p
    by_cases h3 : k3 = k
    · subst h3
      simp [dictSet, dictGet, h]
    · by_cases h4 : k3 = k2
      · subst h4
        simp [dictSet, dictGet, h3, Ne.symm h]
      · simp [dictSet, dictGet, h3, h4, ih]

theorem dictGet_mem {α : Type} (m : List (String × α)) (k : String) (v : α)
    (h : dictGet m k = some v) : (k, v) ∈ m := by
  induction m with
  | nil => simp [dictGet] at h
  | cons p rest ih =>
    obtain ⟨k2, w⟩ := p
    by_cases h2 : k2 = k
    · subst h2
      simp [dictGet] at h
      simp [h]
    · simp [dictGet, h2] at h
      exact List.mem_cons_of_mem _ (ih h)

theorem dictSet_keys_of_mem {α : Type} (m : List (String × α)) (k : String) (v : α)
    (h : k ∈ m.map (·.1)) : (dictSet m k v).map (·.1) = m.map (·.1) := by
  induction m with
  | nil => simp at h
  | cons p rest ih =>
    obtain ⟨k2, w⟩ := p
    by_cases h2 : k2 = k
    · simp [dictSet, h2]
    · have hk : k ∈ rest.map (·.1) := by
        simp at h
        rcases h with h | h
        · exact absurd h.symm h2
        · simpa using h
      simp [dictSet, h2, ih hk]

theorem dedupAux_sub (l : List String) : ∀ seen, ∀ x ∈ dedupAux seen l, x ∈ l := by
  induction l with
  | nil =>
    intro seen x hx
    simp [dedupAux] at hx
  | cons a rest ih =>
    intro seen x hx
    by_cases h : a ∈ seen
    · simp only [dedupAux, if_pos h] at hx
      exact List.mem_cons_of_mem _ (ih seen x hx)
    · simp only [dedupAux, if_neg h] at hx
      rcases List.mem_cons.mp hx with h1 | h1
      · simp [h1]
      · exact List.mem_cons_of_mem _ (ih _ x h1)

theorem dedup_sub (l : List String) (x : String) (h : x ∈ dedup l) : x ∈ l :=
  dedupAux_sub l [] x h

theorem addDependent_mono (cell : String) (dd : List (String × List String))
    (r v x : String) (h : x ∈ (dictGet dd v).getD []) :
    x ∈ (dictGet (addDependent cell dd r) v).getD [] := by
  unfold addDependent
  by_cases hrv : r = v
  · subst hrv
    rw [dictGet_dictSet_self]
    by_cases hc : cell ∈ (dictGet dd r).getD []
    · simpa [hc] using h
    · simp only [if_neg hc, Option.getD_some]
      exact List.mem_append_left _ h
  · rw [dictGet_dictSet_ne _ _ _ _ hrv]
    exact h

theorem addDependent_self (cell : String) (dd : List (String × List String))
    (r : String) : cell ∈ (dictGet (addDependent cell dd r) r).getD [] := by
  unfold addDependent
  rw [dictGet_dictSet_self]
  by_cases hc : cell ∈ (dictGet dd r).getD []
  · simp [hc]
  · simp [hc]

theorem foldl_addDependent_mono (cell : String) (refs : List String) :
    ∀ dd v x, x ∈ (dictGet dd v).getD [] →
      x ∈ (dictGet (refs.foldl (addDependent cell) dd) v).getD [] := by
  induction refs with
  | nil => intro dd v x h; exact h
  | cons r rest ih =>
    intro dd v x h
    exact ih _ v x (addDependent_mono cell dd r v x h)

theorem foldl_addDependent_self (cell : String) (refs : List String) :
    ∀ dd r, r ∈ refs →
      cell ∈ (dictGet (refs.foldl (addDependent cell) dd) r).getD [] := by
  induction refs with
  | nil =>
    intro dd r h
    simp at h
  | cons a rest ih =>
    intro dd r h
    rcases List.mem_cons.mp h with h1 | h1
    · subst h1
      exact foldl_addDependent_mono cell rest _ r cell (addDependent_self cell dd r)
    · exact ih _ r h1

theorem add_formula_fwd_rev (g : DepGraph) (cell : String) (f : Expr)
    (refs : List String)
    (hg : ∀ u v, v ∈ depsOf g u → u ∈ dependentsOf g v) :
    ∀ u v, v ∈ depsOf (add_formula g cell f refs) u →
      u ∈ dependentsOf (add_formula g cell f refs) v := by
  intro u v hv
  simp only [depsOf, add_formula] at hv
  simp only [dependentsOf, add_formula]
  by_cases hu : cell = u
  · subst hu
    rw [dictGet_dictSet_self] at hv
    simp only [Option.getD_some] at hv
    exact foldl_addDependent_self cell refs g.dependents v (dedup_sub refs v hv)
  · rw [dictGet_dictSet_ne _ _ _ _ hu] at hv
    exact foldl_addDependent_mono cell refs g.dependents v u (hg u v hv)

/-- C6, counterexample.  After `add_formula` is called again for `S!B1`
with a formula reading `S!C1` instead of `S!A1`, the stale reverse edge
`S!B1 ∈ dependents["S!A1"]` remains although `S!A1` is no longer in
`dependencies["S!B1"]`: the claimed equivalence fails in the
reverse-to-forward direction. -/
theorem c6_stale_reverse_counterexample :
    "S!B1" ∈ dependentsOf gReRegistered "S!A1" ∧
    "S!A1" ∉ depsOf gReRegistered "S!B1" := by
  constructor <;> decide

/-- C6, amended: after every sequence of `add_formula` calls, every forward
edge has its reverse edge (`v ∈ forward[u] → u ∈ reverse[v]`); the
converse direction can fail when a cell's formula is re-registered with
different references, because stale reverse edges are never removed. -/
theorem c6_forward_reverse (calls : List (String × Expr × List String)) :
    ∀ u v, v ∈ depsOf (buildGraph calls) u →
      u ∈ dependentsOf (buildGraph calls) v := by
  suffices h : ∀ g : DepGraph, (∀ u v, v ∈ depsOf g u → u ∈ dependentsOf g v) →
      ∀ u v, v ∈ depsOf (calls.foldl (fun g c => add_formula g c.1 c.2.1 c.2.2) g) u →
        u ∈ dependentsOf (calls.foldl (fun g c => add_formula g c.1 c.2.1 c.2.2) g) v by
    apply h
    intro u v hv
    simp [depsOf, DepGraph.empty, dictGet] at hv
  induction calls with
  | nil =>
    intro g hg
    exact hg
  | cons c rest ih =>
    intro g hg
    exact ih _ (add_formula_fwd_rev g c.1 c.2.1 c.2.2 hg)

/-- C6, witness: the forward-to-reverse direction at a one-call graph. -/
theorem c6_forward_reverse_witness :
    "S!A1" ∈ depsOf (buildGraph [("S!B1", Expr.lit .empty, ["S!A1"])]) "S!B1" ∧
    "S!B1" ∈ dependentsOf (buildGraph [("S!B1", Expr.lit .empty, ["S!A1"])]) "S!A1" :=
  ⟨by decide, c6_forward_reverse _ "S!B1" "S!A1" (by decide)⟩

/-! ### Wall-clock determinism (C7) -/

theorem evalE_clock_free (c1 c2 : Clock) : ∀ (e : Expr) (store : List (String × Arg)),
    usesClock e = false → evalE store c1 e = evalE store c2 e := by
  intro e
  induction e with
  | lit v => intro store h; rfl
  | ref r => intro store h; rfl
  | binop op l r ihl ihr =>
    intro store h
    simp only [usesClock, Bool.or_eq_false_iff] at h
    simp only [evalE, ihl store h.1, ihr store h.2]
  | cmp op l r ihl ihr =>
    intro store h
    simp only [usesClock, Bool.or_eq_false_iff] at h
    simp only [evalE, ihl store h.1, ihr store h.2]
  | neg e ih =>
    intro store h
    simp only [usesClock] at h
    simp only [evalE, ih store h]
  | pos e ih =>
    intro store h
    simp only [usesClock] at h
    simp only [evalE, ih store h]
  | now => intro store h; simp [usesClock] at h
  | today => intro store h; simp [usesClock] at h

theorem calcLoop_clock_free (g : DepGraph) (c1 c2 : Clock)
    (hf : ∀ p ∈ g.formulas, usesClock p.2 = false) :
    ∀ (order : List String) (store results : List (String × Arg)),
      calcLoop g c1 order store results = calcLoop g c2 order store results := by
  intro order
  induction order with
  | nil => intro store results; rfl
  | cons c rest ih =>
    intro store results
    have he : usesClock ((dictGet g.formulas c).getD (.lit .empty)) = false := by
      cases hg : dictGet g.formulas c with
      | none => rfl
      | some f => exact hf (c, f) (dictGet_mem _ _ _ hg)
    simp only [calcLoop]
    rw [evalE_clock_free c1 c2 _ store he]
    exact ih _ _

/-- C7, counterexample.  The claim says two successive `calculate` calls
produce bit-identical outputs even for workbooks using `NOW`; the code
re-reads the wall clock inside `_builtin_now` at each evaluation, so a
second call one day later returns a different serial for the same
workbook with unchanged cell inputs. -/
theorem c7_now_counterexample :
    gNow.formulas = [("Sheet1!A1", Expr.now)] ∧
    calculate gNow [] clkA
      = .ok ([("Sheet1!A1", Arg.val (.num 1))], [("Sheet1!A1", Arg.val (.num 1))]) ∧
    calculate gNow [("Sheet1!A1", Arg.val (.num 1))] clkB
      = .ok ([("Sheet1!A1", Arg.val (.num 2))], [("Sheet1!A1", Arg.val (.num 2))]) ∧
    Arg.val (CellVal.num 1) ≠ Arg.val (CellVal.num 2) := by
  have hA : evalE ([] : List (String × Arg)) clkA Expr.now = Arg.val (.num 1) := by
    show Arg.val (.num (builtin_now clkA)) = Arg.val (.num 1)
    have h : builtin_now clkA = 1 := by
      have hd : date_to_serial clkA.year clkA.month clkA.day = 1 := by decide
      unfold builtin_now
      rw [hd]
      norm_num [clkA]
    rw [h]
  have hB : evalE [("Sheet1!A1", Arg.val (.num 1))] clkB Expr.now = Arg.val (.num 2) := by
    show Arg.val (.num (builtin_now clkB)) = Arg.val (.num 2)
    have h : builtin_now clkB = 2 := by
      have hd : date_to_serial clkB.year clkB.month clkB.day = 2 := by decide
      unfold builtin_now
      rw [hd]
      norm_num [clkB]
    rw [h]
  refine ⟨rfl, ?_, ?_, by decide⟩
  · have hstep : calculate gNow [] clkA
        = .ok ([("Sheet1!A1", evalE ([] : List (String × Arg)) clkA Expr.now)],
               [("Sheet1!A1", evalE ([] : List (String × Arg)) clkA Expr.now)]) := rfl
    rw [hstep, hA]
  · have hstep : calculate gNow [("Sheet1!A1", Arg.val (.num 1))] clkB
        = .ok ([("Sheet1!A1", evalE [("Sheet1!A1", Arg.val (.num 1))] clkB Expr.now)],
               [("Sheet1!A1", evalE [("Sheet1!A1", Arg.val (.num 1))] clkB Expr.now)]) := rfl
    rw [hstep, hB]

theorem evalE_congr (s1 s2 : List (String × Arg)) (c1 c2 : Clock) :
    ∀ (e : Expr), usesClock e = false →
    (∀ k ∈ readsOf e, dictGet s1 k = dictGet s2 k) →
    evalE s1 c1 e = evalE s2 c2 e := by
  intro e
  induction e with
  | lit v => intro _ _; rfl
  | ref r =>
    intro _ hk
    simp only [evalE]
    rw [hk r (by simp [readsOf])]
  | binop op l r ihl ihr =>
    intro hc hk
    simp only [usesClock, Bool.or_eq_false_iff] at hc
    simp only [evalE]
    rw [ihl hc.1 (fun k hkk => hk k (by simp [readsOf, hkk])),
        ihr hc.2 (fun k hkk => hk k (by simp [readsOf, hkk]))]
  | cmp op l r ihl ihr =>
    intro hc hk
    simp only [usesClock, Bool.or_eq_false_iff] at hc
    simp only [evalE]
    rw [ihl hc.1 (fun k hkk => hk k (by simp [readsOf, hkk])),
        ihr hc.2 (fun k hkk => hk k (by simp [readsOf, hkk]))]
  | neg e ih =>
    intro hc hk
    simp only [usesClock] at hc
    simp only [evalE]
    rw [ih hc hk]
  | pos e ih =>
    intro hc hk
    simp only [usesClock] at hc
    simp only [evalE]
    rw [ih hc hk]
  | now => intro hc _; simp [usesClock] at hc
  | today => intro hc _; simp [usesClock] at hc

theorem calcLoop_store_untouched (g : DepGraph) (clk : Clock) :
    ∀ (order : List String) (store results : List (String × Arg)) (k : String),
    k ∉ order → dictGet (calcLoop g clk order store results).1 k = dictGet store k := by
  intro order
  induction order with
  | nil => intro store results k _; rfl
  | cons c rest ih =>
    intro store results k hk
    have hkc : ¬ c = k := fun he => hk (he ▸ List.mem_cons_self c rest)
    simp only [calcLoop]
    rw [ih _ _ k (fun hm => hk (List.mem_cons_of_mem _ hm)),
        dictGet_dictSet_ne _ _ _ _ hkc]

theorem dictSet_eq_of_get {α : Type} : ∀ (m : List (String × α)) (k : String) (v : α),
    dictGet m k = some v → dictSet m k v = m := by
  intro m
  induction m with
  | nil =>
    intro k v h
    simp [dictGet] at h
  | cons p rest ih =>
    intro k v h
    obtain ⟨k2, w⟩ := p
    by_cases hk : k2 = k
    · simp only [dictGet, if_pos hk] at h
      injection h with h
      simp [dictSet, hk, h]
    · simp only [dictGet, if_neg hk] at h
      simp [dictSet, hk, ih k v h]

theorem calcLoop_run (g : DepGraph) (c1 c2 : Clock) :
    ∀ (rest : List String) (s res : List (String × Arg)),
    rest.Nodup →
    (∀ (i : ℕ) (hi : i < rest.length),
       usesClock ((dictGet g.formulas (rest.get ⟨i, hi⟩)).getD (.lit .empty)) = false) →
    (∀ (i : ℕ) (hi : i < rest.length),
       ∀ k ∈ readsOf ((dictGet g.formulas (rest.get ⟨i, hi⟩)).getD (.lit .empty)),
         k ∉ rest.drop i) →
    (∀ c ∈ rest,
       dictGet (calcLoop g c1 rest s res).1 c
         = some (evalE (calcLoop g c1 rest s res).1 c2
             ((dictGet g.formulas c).getD (.lit .empty)))) ∧
    (calcLoop g c1 rest s res).2
      = res ++ rest.map (fun c =>
          (c, (dictGet (calcLoop g c1 rest s res).1 c).getD (.val .empty))) := by
  intro rest
  induction rest with
  | nil =>
    intro s res _ _ _
    refine ⟨?_, by simp [calcLoop]⟩
    intro c hc
    simp at hc
  | cons c rest ih =>
    intro s res hnd hclk hreads
    obtain ⟨hcr, hnd2⟩ := List.nodup_cons.mp hnd
    have hstep : calcLoop g c1 (c :: rest) s res
        = calcLoop g c1 rest
            (dictSet s c (evalE s c1 ((dictGet g.formulas c).getD (.lit .empty))))
            (res ++ [(c, evalE s c1 ((dictGet g.formulas c).getD (.lit .empty)))]) := rfl
    obtain ⟨ihA, ihB⟩ := ih
      (dictSet s c (evalE s c1 ((dictGet g.formulas c).getD (.lit .empty))))
      (res ++ [(c, evalE s c1 ((dictGet g.formulas c).getD (.lit .empty)))])
      hnd2
      (fun i hi => hclk (i + 1) (Nat.succ_lt_succ hi))
      (fun i hi => hreads (i + 1) (Nat.succ_lt_succ hi))
    rw [hstep]
    have hgetc : dictGet (calcLoop g c1 rest
          (dictSet s c (evalE s c1 ((dictGet g.formulas c).getD (.lit .empty))))
          (res ++ [(c, evalE s c1 ((dictGet g.formulas c).getD (.lit .empty)))])).1 c
        = some (evalE s c1 ((dictGet g.formulas c).getD (.lit .empty))) := by
      rw [calcLoop_store_untouched g c1 rest _ _ c hcr, dictGet_dictSet_self]
    have hagree : ∀ k ∈ readsOf ((dictGet g.formulas c).getD (.lit .empty)),
        dictGet s k
          = dictGet (calcLoop g c1 rest
              (dictSet s c (evalE s c1 ((dictGet g.formulas c).getD (.lit .empty))))
              (res ++ [(c, evalE s c1 ((dictGet g.formulas c).getD (.lit .empty)))])).1 k := by
      intro k hkread
      have hknot := hreads 0 (Nat.succ_pos _) k hkread
      have hkc : ¬ c = k := fun he => hknot (he ▸ List.mem_cons_self c rest)
      have hkrest : k ∉ rest := fun hm => hknot (List.mem_cons_of_mem _ hm)
      rw [calcLoop_store_untouched g c1 rest _ _ k hkrest,
          dictGet_dictSet_ne _ _ _ _ hkc]
    have hveq : evalE (calcLoop g c1 rest
          (dictSet s c (evalE s c1 ((dictGet g.formulas c).getD (.lit .empty))))
          (res ++ [(c, evalE s c1 ((dictGet g.formulas c).getD (.lit .empty)))])).1 c2
          ((dictGet g.formulas c).getD (.lit .empty))
        = evalE s c1 ((dictGet g.formulas c).getD (.lit .empty)) :=
      (evalE_congr s _ c1 c2 _ (hclk 0 (Nat.succ_pos _)) hagree).symm
    constructor
    · intro d hd
      rcases List.mem_cons.mp hd with h | h
      · subst h
        rw [hgetc, hveq]
      · exact ihA d h
    · rw [ihB]
      simp only [List.map_cons]
      rw [hgetc]
      simp [List.append_assoc]

theorem calcLoop_fixed (g : DepGraph) (c2 : Clock) :
    ∀ (rest : List String) (s res : List (String × Arg)),
    (∀ c ∈ rest, dictGet s c
        = some (evalE s c2 ((dictGet g.formulas c).getD (.lit .empty)))) →
    calcLoop g c2 rest s res
      = (s, res ++ rest.map (fun c => (c, (dictGet s c).getD (.val .empty)))) := by
  intro rest
  induction rest with
  | nil =>
    intro s res _
    simp [calcLoop]
  | cons c rest ih =>
    intro s res hfix
    have hc := hfix c (List.mem_cons_self _ _)
    have hset : dictSet s c (evalE s c2 ((dictGet g.formulas c).getD (.lit .empty))) = s :=
      dictSet_eq_of_get s c _ hc
    have hstep : calcLoop g c2 (c :: rest) s res
        = calcLoop g c2 rest
            (dictSet s c (evalE s c2 ((dictGet g.formulas c).getD (.lit .empty))))
            (res ++ [(c, evalE s c2 ((dictGet g.formulas c).getD (.lit .empty)))]) := rfl
    rw [hstep, hset, ih s _ (fun d hd => hfix d (List.mem_cons_of_mem _ hd))]
    have hval : (dictGet s c).getD (Arg.val .empty)
        = evalE s c2 ((dictGet g.formulas c).getD (.lit .empty)) := by
      rw [hc]
      rfl
    simp [hval, List.append_assoc]

/-! ### Range-expansion lemmas (C8) -/

theorem splitAll_not_mem (c : Char) (s : Str) (h : c ∉ s) : splitAll c s = [s] := by
  induction s with
  | nil => rfl
  | cons x rest ih =>
    have hx : ¬ x = c := fun he => h (he ▸ List.mem_cons_self x rest)
    have hr : c ∉ rest := fun hm => h (List.mem_cons_of_mem _ hm)
    simp only [splitAll, if_neg hx]
    rw [ih hr]

theorem splitAll_append (c : Char) (b : Str) : ∀ a : Str, c ∉ a →
    splitAll c (a ++ c :: b) = a :: splitAll c b := by
  intro a
  induction a with
  | nil =>
    intro _
    simp [splitAll]
  | cons x rest ih =>
    intro h
    have hx : ¬ x = c := fun he => h (he ▸ List.mem_cons_self x rest)
    have hr : c ∉ rest := fun hm => h (List.mem_cons_of_mem _ hm)
    simp only [List.cons_append, splitAll, if_neg hx, List.append_eq]
    rw [ih hr]

theorem takeWhile_append_stop (p : Char → Bool) (b : Str) (y : Char) (hy : p y = false) :
    ∀ a : Str, (∀ x ∈ a, p x = true) → (a ++ y :: b).takeWhile p = a := by
  intro a
  induction a with
  | nil =>
    intro _
    simp [List.takeWhile_cons, hy]
  | cons x rest ih =>
    intro ha
    have hx : p x = true := ha x (List.mem_cons_self _ _)
    simp only [List.cons_append, List.takeWhile_cons, hx]
    simp [ih (fun z hz => ha z (List.mem_cons_of_mem _ hz))]

theorem drop_append_cons (a b : Str) (y : Char) :
    (a ++ y :: b).drop (a.length + 1) = b := by
  have h1 : a ++ y :: b = (a ++ [y]) ++ b := by simp
  have h2 : a.length + 1 = (a ++ [y]).length := by simp
  rw [h1, h2, List.drop_left]

theorem rsplitOnce_eq (sheet rest : Str) (h : '!' ∉ rest) :
    rsplitOnce '!' (sheet ++ '!' :: rest) = (sheet, rest) := by
  unfold rsplitOnce
  have hrev : (sheet ++ '!' :: rest).reverse = rest.reverse ++ '!' :: sheet.reverse := by
    simp
  have htw : (rest.reverse ++ '!' :: sheet.reverse).takeWhile (fun x => x != '!')
      = rest.reverse := by
    apply takeWhile_append_stop _ _ _ (by simp) _
    intro x hx
    have : x ≠ '!' := fun he => h (he ▸ (List.mem_reverse).mp hx)
    simpa using this
  rw [hrev, htw]
  show (((rest.reverse ++ '!' :: sheet.reverse).drop (rest.reverse.length + 1)).reverse,
      rest.reverse.reverse) = (sheet, rest)
  rw [drop_append_cons]
  simp

theorem a1_to_rowcol_error_const (s : Str) (e : String)
    (h : a1_to_rowcol s = .error e) : e = "InvalidReference" := by
  unfold a1_to_rowcol at h
  split at h
  · simpa using h.symm
  · simp at h

theorem expand_range_sheet_eq (sheet p1 p2 : Str)
    (h1 : '!' ∉ p1) (h2 : '!' ∉ p2) (h3 : ':' ∉ p1) (h4 : ':' ∉ p2) :
    expand_range (sheet ++ '!' :: (p1 ++ ':' :: p2))
      = match a1_to_rowcol (p1.filter (fun c => c != '$')),
              a1_to_rowcol (p2.filter (fun c => c != '$')) with
        | .ok (sr, sc), .ok (er, ec) =>
          .ok ((List.range' (min sr er) (max sr er + 1 - min sr er)).flatMap (fun r =>
            (List.range' (min sc ec) (max sc ec + 1 - min sc ec)).map (fun c =>
              stripQuotes sheet ++ '!' :: rowcol_to_a1 r c)))
        | .error e, _ => .error e
        | _, .error e => .error e := by
  have hrest : '!' ∉ p1 ++ ':' :: p2 := by
    intro hm
    rcases List.mem_append.mp hm with hm | hm
    · exact h1 hm
    · rcases List.mem_cons.mp hm with hm | hm
      · exact absurd hm (by decide)
      · exact h2 hm
  have hcont : (sheet ++ '!' :: (p1 ++ ':' :: p2)).contains '!' = true := by
    simp
  have hrs : rsplitOnce '!' (sheet ++ '!' :: (p1 ++ ':' :: p2)) = (sheet, p1 ++ ':' :: p2) :=
    rsplitOnce_eq _ _ hrest
  have hsp : splitAll ':' (p1 ++ ':' :: p2) = [p1, p2] := by
    rw [splitAll_append _ _ _ h3, splitAll_not_mem _ _ h4]
  simp only [expand_range, hcont, if_true, hrs, hsp]

theorem expand_range_nosheet_eq (p1 p2 : Str)
    (h1 : '!' ∉ p1) (h2 : '!' ∉ p2) (h3 : ':' ∉ p1) (h4 : ':' ∉ p2) :
    expand_range (p1 ++ ':' :: p2)
      = match a1_to_rowcol (p1.filter (fun c => c != '$')),
              a1_to_rowcol (p2.filter (fun c => c != '$')) with
        | .ok (sr, sc), .ok (er, ec) =>
          .ok ((List.range' (min sr er) (max sr er + 1 - min sr er)).flatMap (fun r =>
            (List.range' (min sc ec) (max sc ec + 1 - min sc ec)).map (fun c =>
              rowcol_to_a1 r c)))
        | .error e, _ => .error e
        | _, .error e => .error e := by
  have hcont : (p1 ++ ':' :: p2).contains '!' = false := by
    simp only [List.contains, List.elem_eq_mem, decide_eq_false_iff_not]
    intro hm
    rcases List.mem_append.mp hm with hm | hm
    · exact h1 hm
    · rcases List.mem_cons.mp hm with hm | hm
      · exact absurd hm (by decide)
      · exact h2 hm
  have hsp : splitAll ':' (p1 ++ ':' :: p2) = [p1, p2] := by
    rw [splitAll_append _ _ _ h3, splitAll_not_mem _ _ h4]
  simp only [expand_range, hcont, Bool.false_eq_true, if_false, hsp]

/-- C8: `expand_range` normalises the two corners by min/max on each axis
and enumerates row-major, so swapping the corners (with or without a sheet
prefix) yields the same list; when both corners parse, the output is
exactly the row-major enumeration, every cell of which carries the
(unquoted) sheet prefix of the input. -/
theorem c8_expand_range (sheet p1 p2 : Str)
    (h1 : '!' ∉ p1) (h2 : '!' ∉ p2) (h3 : ':' ∉ p1) (h4 : ':' ∉ p2) :
    expand_range (sheet ++ '!' :: (p1 ++ ':' :: p2))
      = expand_range (sheet ++ '!' :: (p2 ++ ':' :: p1)) ∧
    expand_range (p1 ++ ':' :: p2) = expand_range (p2 ++ ':' :: p1) ∧
    (∀ r1 c1 r2 c2,
      a1_to_rowcol (p1.filter (fun c => c != '$')) = .ok (r1, c1) →
      a1_to_rowcol (p2.filter (fun c => c != '$')) = .ok (r2, c2) →
      expand_range (sheet ++ '!' :: (p1 ++ ':' :: p2))
        = .ok ((List.range' (min r1 r2) (max r1 r2 + 1 - min r1 r2)).flatMap (fun r =>
            (List.range' (min c1 c2) (max c1 c2 + 1 - min c1 c2)).map (fun c =>
              stripQuotes sheet ++ '!' :: rowcol_to_a1 r c))) ∧
      expand_range (p1 ++ ':' :: p2)
        = .ok ((List.range' (min r1 r2) (max r1 r2 + 1 - min r1 r2)).flatMap (fun r =>
            (List.range' (min c1 c2) (max c1 c2 + 1 - min c1 c2)).map (fun c =>
              rowcol_to_a1 r c))) ∧
      (∀ cells, expand_range (sheet ++ '!' :: (p1 ++ ':' :: p2)) = .ok cells →
        ∀ x ∈ cells, ∃ tail, x = stripQuotes sheet ++ '!' :: tail)) := by
  have e12s := expand_range_sheet_eq sheet p1 p2 h1 h2 h3 h4
  have e21s := expand_range_sheet_eq sheet p2 p1 h2 h1 h4 h3
  have e12 := expand_range_nosheet_eq p1 p2 h1 h2 h3 h4
  have e21 := expand_range_nosheet_eq p2 p1 h2 h1 h4 h3
  refine ⟨?_, ?_, ?_⟩
  · rw [e12s, e21s]
    cases hA : a1_to_rowcol (p1.filter (fun c => c != '$')) with
    | ok v1 =>
      cases hB : a1_to_rowcol (p2.filter (fun c => c != '$')) with
      | ok v2 =>
        obtain ⟨r1, c1⟩ := v1
        obtain ⟨r2, c2⟩ := v2
        simp only
        rw [min_comm r2 r1, max_comm r2 r1, min_comm c2 c1, max_comm c2 c1]
      | error e => simp only
    | error e =>
      cases hB : a1_to_rowcol (p2.filter (fun c => c != '$')) with
      | ok v2 =>
        obtain ⟨r2, c2⟩ := v2
        simp only
      | error e2 =>
        simp only
        rw [a1_to_rowcol_error_const _ _ hA, a1_to_rowcol_error_const _ _ hB]
  · rw [e12, e21]
    cases hA : a1_to_rowcol (p1.filter (fun c => c != '$')) with
    | ok v1 =>
      cases hB : a1_to_rowcol (p2.filter (fun c => c != '$')) with
      | ok v2 =>
        obtain ⟨r1, c1⟩ := v1
        obtain ⟨r2, c2⟩ := v2
        simp only
        rw [min_comm r2 r1, max_comm r2 r1, min_comm c2 c1, max_comm c2 c1]
      | error e => simp only
    | error e =>
      cases hB : a1_to_rowcol (p2.filter (fun c => c != '$')) with
      | ok v2 =>
        obtain ⟨r2, c2⟩ := v2
        simp only
      | error e2 =>
        simp only
        rw [a1_to_rowcol_error_const _ _ hA, a1_to_rowcol_error_const _ _ hB]
  · intro r1 c1 r2 c2 hA hB
    have hok : expand_range (sheet ++ '!' :: (p1 ++ ':' :: p2))
        = .ok ((List.range' (min r1 r2) (max r1 r2 + 1 - min r1 r2)).flatMap (fun r =>
            (List.range' (min c1 c2) (max c1 c2 + 1 - min c1 c2)).map (fun c =>
              stripQuotes sheet ++ '!' :: rowcol_to_a1 r c))) := by
      rw [e12s, hA, hB]
    refine ⟨hok, by rw [e12, hA, hB], ?_⟩
    intro cells hcells x hx
    rw [hok] at hcells
    have hcx : cells = (List.range' (min r1 r2) (max r1 r2 + 1 - min r1 r2)).flatMap (fun r =>
        (List.range' (min c1 c2) (max c1 c2 + 1 - min c1 c2)).map (fun c =>
          stripQuotes sheet ++ '!' :: rowcol_to_a1 r c)) := by
      injection hcells.symm
    subst hcx
    rcases List.mem_flatMap.mp hx with ⟨r, _, hxr⟩
    rcases List.mem_map.mp hxr with ⟨c, _, hxc⟩
    exact ⟨rowcol_to_a1 r c, hxc.symm⟩

/-- C8, witness: the theorem applied at `Sheet1!A5:A1` (corners `A5`,
`A1`). -/
theorem c8_expand_range_witness :
    ('!' ∉ ['A', '5']) ∧
    expand_range ("Sheet1".toList ++ '!' :: (['A', '5'] ++ ':' :: ['A', '1']))
      = expand_range ("Sheet1".toList ++ '!' :: (['A', '1'] ++ ':' :: ['A', '5'])) :=
  ⟨by decide,
    (c8_expand_range "Sheet1".toList ['A', '5'] ['A', '1']
      (by decide) (by decide) (by decide) (by decide)).1⟩

/-! ### Kahn-loop lemmas (C1) -/

/-- C1, counterexample.  `gCycleStale` is built through the public
`add_formula` API only; its current formula-cell subgraph has the
dependency cycle `S!A1 ↔ S!B1`, yet `topological_order` outputs all three
cells and raises nothing: the stale reverse edge left in
`dependents["S!C1"]` by the re-registration of `S!A1` drives a spurious
in-degree decrement that unblocks the cycle. -/
theorem c1_cycle_not_detected_counterexample :
    "S!B1" ∈ depsOf gCycleStale "S!A1" ∧
    "S!A1" ∈ depsOf gCycleStale "S!B1" ∧
    cycleFree gCycleStale = false ∧
    topological_order gCycleStale = .ok ["S!C1", "S!A1", "S!B1"] :=
  ⟨by decide, by decide, by decide, by decide⟩

theorem filter_mem_sub (order L fc : List String) (hsub : ∀ x ∈ order, x ∈ fc) :
    order.filter (· ∈ L) ⊆ L.filter (· ∈ fc) := by
  intro x hx
  rw [List.mem_filter] at hx ⊢
  exact ⟨of_decide_eq_true hx.2, decide_eq_true (hsub x hx.1)⟩

theorem filter_count_le (order L fc : List String) (ho : order.Nodup)
    (hsub : ∀ x ∈ order, x ∈ fc) :
    (order.filter (· ∈ L)).length ≤ (L.filter (· ∈ fc)).length :=
  ((ho.filter _).subperm (filter_mem_sub order L fc hsub)).length_le

theorem filter_count_lt (order L fc : List String) (ho : order.Nodup)
    (hsub : ∀ x ∈ order, x ∈ fc) (d : String) (hdL : d ∈ L) (hdfc : d ∈ fc)
    (hdo : d ∉ order) :
    (order.filter (· ∈ L)).length < (L.filter (· ∈ fc)).length := by
  have hnd : (d :: order.filter (· ∈ L)).Nodup := by
    refine List.nodup_cons.mpr ⟨?_, ho.filter _⟩
    intro hmem
    exact hdo (List.mem_of_mem_filter hmem)
  have hsp : List.Subperm (d :: order.filter (· ∈ L)) (L.filter (· ∈ fc)) := by
    apply hnd.subperm
    intro x hx
    rcases List.mem_cons.mp hx with h | h
    · subst h
      rw [List.mem_filter]
      exact ⟨hdL, decide_eq_true hdfc⟩
    · exact filter_mem_sub order L fc hsub h
  have := hsp.length_le
  simpa using this

theorem filter_count_eq_all_mem (order L fc : List String) (ho : order.Nodup)
    (hsub : ∀ x ∈ order, x ∈ fc)
    (heq : (order.filter (· ∈ L)).length = (L.filter (· ∈ fc)).length) :
    ∀ d ∈ L, d ∈ fc → d ∈ order := by
  intro d hdL hdfc
  by_contra hdo
  have := filter_count_lt order L fc ho hsub d hdL hdfc hdo
  omega

theorem filter_count_full (order L fc : List String) (hL : L.Nodup)
    (hall : ∀ d ∈ L, d ∈ fc → d ∈ order) :
    (L.filter (· ∈ fc)).length ≤ (order.filter (· ∈ L)).length := by
  apply List.Subperm.length_le
  apply (hL.filter _).subperm
  intro x hx
  rw [List.mem_filter] at hx ⊢
  exact ⟨hall x hx.1 (of_decide_eq_true hx.2), decide_eq_true hx.1⟩

theorem processDeps_get (fc : List String) : ∀ (deps : List String)
    (deg : List (String × ℤ)) (queue : List String), deps.Nodup →
    ∀ (c : String) (z : ℤ), dictGet deg c = some z →
    dictGet (processDeps fc deps deg queue).1 c
      = some (if c ∈ deps ∧ c ∈ fc then z - 1 else z) := by
  intro deps
  induction deps with
  | nil =>
    intro deg queue _ c z hz
    simpa [processDeps] using hz
  | cons d rest ih =>
    intro deg queue hnd c z hz
    obtain ⟨hd0, hnd2⟩ := List.nodup_cons.mp hnd
    by_cases hdfc : d ∈ fc
    · simp only [processDeps, if_pos hdfc]
      by_cases hcd : c = d
      · subst hcd
        have hget : dictGet (dictSet deg c ((dictGet deg c).getD 0 - 1)) c
            = some (z - 1) := by
          rw [dictGet_dictSet_self, hz]
          rfl
        rw [ih _ _ hnd2 c (z - 1) hget]
        have hcr : ¬ (c ∈ rest ∧ c ∈ fc) := fun hcc => hd0 hcc.1
        rw [if_neg hcr, if_pos ⟨List.mem_cons_self _ _, hdfc⟩]
      · have hget : dictGet (dictSet deg d ((dictGet deg d).getD 0 - 1)) c
            = some z := by
          rw [dictGet_dictSet_ne _ _ _ _ (fun he => hcd he.symm)]
          exact hz
        rw [ih _ _ hnd2 c z hget]
        have hiff : (c ∈ rest ∧ c ∈ fc) ↔ (c ∈ d :: rest ∧ c ∈ fc) := by
          constructor
          · exact fun h => ⟨List.mem_cons_of_mem _ h.1, h.2⟩
          · rintro ⟨h1, h2⟩
            rcases List.mem_cons.mp h1 with h | h
            · exact absurd h hcd
            · exact ⟨h, h2⟩
        by_cases hc2 : c ∈ rest ∧ c ∈ fc
        · rw [if_pos hc2, if_pos (hiff.mp hc2)]
        · rw [if_neg hc2, if_neg (fun h => hc2 (hiff.mpr h))]
    · simp only [processDeps, if_neg hdfc]
      rw [ih _ _ hnd2 c z hz]
      by_cases hcd : c = d
      · have hn1 : ¬ (c ∈ rest ∧ c ∈ fc) := fun hcc => hdfc (hcd ▸ hcc.2)
        have hn2 : ¬ (c ∈ d :: rest ∧ c ∈ fc) := fun hcc => hdfc (hcd ▸ hcc.2)
        rw [if_neg hn1, if_neg hn2]
      · have hiff : (c ∈ rest ∧ c ∈ fc) ↔ (c ∈ d :: rest ∧ c ∈ fc) := by
          constructor
          · exact fun h => ⟨List.mem_cons_of_mem _ h.1, h.2⟩
          · rintro ⟨h1, h2⟩
            rcases List.mem_cons.mp h1 with h | h
            · exact absurd h hcd
            · exact ⟨h, h2⟩
        by_cases hc2 : c ∈ rest ∧ c ∈ fc
        · rw [if_pos hc2, if_pos (hiff.mp hc2)]
        · rw [if_neg hc2, if_neg (fun h => hc2 (hiff.mpr h))]

theorem processDeps_queue (fc : List String) : ∀ (deps : List String)
    (deg : List (String × ℤ)) (queue : List String), deps.Nodup →
    (processDeps fc deps deg queue).2
      = queue ++ deps.filter
          (fun d => decide (d ∈ fc) && decide ((dictGet deg d).getD 0 = 1)) := by
  intro deps
  induction deps with
  | nil =>
    intro deg queue _
    simp [processDeps]
  | cons d rest ih =>
    intro deg queue hnd
    obtain ⟨hd0, hnd2⟩ := List.nodup_cons.mp hnd
    by_cases hdfc : d ∈ fc
    · simp only [processDeps, if_pos hdfc]
      rw [ih _ _ hnd2]
      have hfilt : rest.filter (fun x => decide (x ∈ fc) &&
            decide ((dictGet (dictSet deg d ((dictGet deg d).getD 0 - 1)) x).getD 0 = 1))
          = rest.filter (fun x => decide (x ∈ fc) && decide ((dictGet deg x).getD 0 = 1)) := by
        apply List.filter_congr
        intro x hx
        have hxd : d ≠ x := fun he => hd0 (he ▸ hx)
        rw [dictGet_dictSet_ne _ _ _ _ hxd]
      rw [hfilt]
      by_cases hv : (dictGet deg d).getD 0 - 1 = 0
      · rw [if_pos hv]
        have hone : ((dictGet deg d).getD 0 = 1) := by omega
        have hcond : (decide (d ∈ fc) && decide ((dictGet deg d).getD 0 = 1)) = true := by
          rw [decide_eq_true hdfc, decide_eq_true hone]
          rfl
        rw [List.filter_cons, hcond]
        simp
      · rw [if_neg hv]
        have hone : ¬ ((dictGet deg d).getD 0 = 1) := by omega
        have hcond : (decide (d ∈ fc) && decide ((dictGet deg d).getD 0 = 1)) = false := by
          rw [decide_eq_false hone]
          simp
        rw [List.filter_cons, hcond]
        simp
    · simp only [processDeps, if_neg hdfc]
      rw [ih _ _ hnd2]
      have hcond : (decide (d ∈ fc) && decide ((dictGet deg d).getD 0 = 1)) = false := by
        rw [decide_eq_false hdfc]
        simp
      rw [List.filter_cons, hcond]
      simp

theorem processDeps_keys (fc : List String) : ∀ (deps : List String)
    (deg : List (String × ℤ)) (queue : List String),
    (∀ d ∈ deps, d ∈ fc → d ∈ deg.map (·.1)) →
    (processDeps fc deps deg queue).1.map (·.1) = deg.map (·.1) := by
  intro deps
  induction deps with
  | nil =>
    intro deg queue _
    rfl
  | cons d rest ih =>
    intro deg queue hk
    by_cases hdfc : d ∈ fc
    · simp only [processDeps, if_pos hdfc]
      have hkeys := dictSet_keys_of_mem deg d ((dictGet deg d).getD 0 - 1)
        (hk d (List.mem_cons_self _ _) hdfc)
      rw [ih _ _ ?_, hkeys]
      intro x hx hxfc
      rw [hkeys]
      exact hk x (List.mem_cons_of_mem _ hx) hxfc
    · simp only [processDeps, if_neg hdfc]
      exact ih _ _ (fun x hx hxfc => hk x (List.mem_cons_of_mem _ hx) hxfc)

theorem potential_dictSet (deg : List (String × ℤ)) (d : String) (z w : ℤ)
    (h : dictGet deg d = some z) :
    potential (dictSet deg d w) + z.toNat = potential deg + w.toNat := by
  induction deg with
  | nil => simp [dictGet] at h
  | cons p rest ih =>
    obtain ⟨k, v⟩ := p
    by_cases hk : k = d
    · subst hk
      simp only [dictGet, if_true, eq_self_iff_true, Option.some.injEq] at h
      subst h
      simp only [dictSet, if_true, eq_self_iff_true, potential, List.map_cons, List.sum_cons]
      omega
    · simp only [dictGet, if_neg hk] at h
      simp only [dictSet, if_neg hk, potential, List.map_cons, List.sum_cons]
      have := ih h
      simp only [potential] at this
      omega

theorem potential_dictSet_missing (deg : List (String × ℤ)) (d : String) (w : ℤ)
    (h : dictGet deg d = none) :
    potential (dictSet deg d w) = potential deg + w.toNat := by
  induction deg with
  | nil => simp [dictSet, potential]
  | cons p rest ih =>
    obtain ⟨k, v⟩ := p
    by_cases hk : k = d
    · simp [dictGet, hk] at h
    · simp only [dictGet, if_neg hk] at h
      simp only [dictSet, if_neg hk, potential, List.map_cons, List.sum_cons]
      have := ih h
      simp only [potential] at this
      omega

theorem processDeps_measure (fc : List String) : ∀ (deps : List String)
    (deg : List (String × ℤ)) (queue : List String),
    (processDeps fc deps deg queue).2.length + potential (processDeps fc deps deg queue).1
      ≤ queue.length + potential deg := by
  intro deps
  induction deps with
  | nil =>
    intro deg queue
    exact le_refl _
  | cons d rest ih =>
    intro deg queue
    by_cases hdfc : d ∈ fc
    · simp only [processDeps, if_pos hdfc]
      refine le_trans (ih _ _) ?_
      cases hz : dictGet deg d with
      | none =>
        simp only [Option.getD_none]
        have hp := potential_dictSet_missing deg d ((0 : ℤ) - 1) hz
        have hneg : ¬ ((0 : ℤ) - 1 = 0) := by omega
        rw [if_neg hneg]
        omega
      | some z =>
        simp only [Option.getD_some]
        have hp := potential_dictSet deg d z (z - 1) hz
        by_cases hv : z - 1 = 0
        · rw [if_pos hv]
          simp only [List.length_append, List.length_cons, List.length_nil]
          omega
        · rw [if_neg hv]
          omega
    · simp only [processDeps, if_neg hdfc]
      exact ih _ _

theorem depsOf_nodup (g : DepGraph) (hdn : ∀ p ∈ g.dependencies, p.2.Nodup) :
    ∀ c, (depsOf g c).Nodup := by
  intro c
  unfold depsOf
  cases h : dictGet g.dependencies c with
  | none => simp
  | some ds => exact hdn (c, ds) (dictGet_mem _ _ _ h)

theorem dependentsOf_nodup (g : DepGraph) (hrn : ∀ p ∈ g.dependents, p.2.Nodup) :
    ∀ c, (dependentsOf g c).Nodup := by
  intro c
  unfold dependentsOf
  cases h : dictGet g.dependents c with
  | none => simp
  | some ds => exact hrn (c, ds) (dictGet_mem _ _ _ h)

theorem consistent_iff (g : DepGraph) (hcons : consistentB g = true) :
    ∀ u v, v ∈ depsOf g u ↔ u ∈ dependentsOf g v := by
  unfold consistentB at hcons
  rw [Bool.and_eq_true] at hcons
  obtain ⟨h1, h2⟩ := hcons
  rw [List.all_eq_true] at h1 h2
  intro u v
  constructor
  · intro hv
    unfold depsOf at hv
    cases h : dictGet g.dependencies u with
    | none =>
      rw [h] at hv
      simp at hv
    | some ds =>
      rw [h] at hv
      simp only [Option.getD_some] at hv
      have hall := h1 (u, ds) (dictGet_mem _ _ _ h)
      rw [List.all_eq_true] at hall
      exact of_decide_eq_true (hall v hv)
  · intro hu
    unfold dependentsOf at hu
    cases h : dictGet g.dependents v with
    | none =>
      rw [h] at hu
      simp at hu
    | some us =>
      rw [h] at hu
      simp only [Option.getD_some] at hu
      have hall := h2 (v, us) (dictGet_mem _ _ _ h)
      rw [List.all_eq_true] at hall
      exact of_decide_eq_true (hall u hu)

theorem dictGet_map_pair (f : String → ℤ) : ∀ (l : List String), l.Nodup →
    ∀ c ∈ l, dictGet (l.map (fun c => (c, f c))) c = some (f c) := by
  intro l
  induction l with
  | nil =>
    intro _ c hc
    simp at hc
  | cons a rest ih =>
    intro hnd c hc
    obtain ⟨ha, hnd2⟩ := List.nodup_cons.mp hnd
    rcases List.mem_cons.mp hc with h | h
    · subst h
      simp [dictGet]
    · have hac : ¬ a = c := fun he => ha (he ▸ h)
      simp only [List.map_cons, dictGet, if_neg hac]
      exact ih hnd2 c h

theorem initDeg_get (g : DepGraph) (fc : List String) (Hfc : fc.Nodup) :
    ∀ c ∈ fc, dictGet (initDeg g fc) c = some (indegOf g fc c) :=
  dictGet_map_pair (fun c => indegOf g fc c) fc Hfc

theorem kahn_terminal (g : DepGraph) (fc : List String)
    (Hdeps : ∀ c, (depsOf g c).Nodup)
    (deg : List (String × ℤ)) (order : List String)
    (hinv : KahnInv g fc deg [] order) :
    KahnResult g fc order := by
  refine ⟨hinv.orderSub, hinv.orderNd, hinv.orderOK, ?_⟩
  intro c hcfc hcno
  have hdg := hinv.degEq c hcfc
  have hne : ¬ (indegOf g fc c - ((order.filter (· ∈ depsOf g c)).length : ℤ) = 0) := by
    intro h0
    rcases hinv.zeroIn c hcfc (by rw [hdg, h0]) with h | h
    · exact hcno h
    · simp at h
  have hle := filter_count_le order (depsOf g c) fc hinv.orderNd hinv.orderSub
  have hlt : (order.filter (· ∈ depsOf g c)).length
      < ((depsOf g c).filter (· ∈ fc)).length := by
    unfold indegOf at hne
    omega
  by_contra hnone
  push_neg at hnone
  have hfull := filter_count_full order (depsOf g c) fc (Hdeps c) hnone
  omega

theorem kahn_init (g : DepGraph) (fc : List String) (Hfc : fc.Nodup) :
    KahnInv g fc (initDeg g fc)
      (fc.filter (fun c => (dictGet (initDeg g fc) c).getD 0 = 0)) [] := by
  refine ⟨?_, ?_, ?_, ?_, ?_, ?_, ?_, ?_, ?_, ?_, ?_⟩
  · simp [initDeg, List.map_map, Function.comp_def]
  · intro c hc
    rw [initDeg_get g fc Hfc c hc]
    simp
  · intro c hc
    simp at hc
  · exact List.nodup_nil
  · intro c hc
    exact List.mem_of_mem_filter hc
  · exact Hfc.filter _
  · intro c hc
    simp
  · intro c hc
    rw [List.mem_filter] at hc
    have h0 := of_decide_eq_true hc.2
    rw [initDeg_get g fc Hfc c hc.1] at h0 ⊢
    simp only [Option.getD_some] at h0
    rw [h0]
  · intro c hc h0
    right
    rw [List.mem_filter]
    refine ⟨hc, decide_eq_true ?_⟩
    rw [h0]
    rfl
  · intro c hc
    simp at hc
  · intro i hi
    simp at hi

theorem kahn_step (g : DepGraph) (fc : List String)
    (Hdeps : ∀ c, (depsOf g c).Nodup)
    (Hdepd : ∀ c, (dependentsOf g c).Nodup)
    (Hcons : ∀ u v, v ∈ depsOf g u ↔ u ∈ dependentsOf g v)
    (c : String) (qrest : List String) (deg : List (String × ℤ)) (order : List String)
    (hinv : KahnInv g fc deg (c :: qrest) order) :
    KahnInv g fc (processDeps fc (dependentsOf g c) deg qrest).1
      (processDeps fc (dependentsOf g c) deg qrest).2 (order ++ [c]) := by
  have hcfc : c ∈ fc := hinv.queueSub c (List.mem_cons_self _ _)
  have hc0 : dictGet deg c = some 0 := hinv.queueZero c (List.mem_cons_self _ _)
  have hcno : c ∉ order := hinv.queueDisj c (List.mem_cons_self _ _)
  obtain ⟨hcq, hqnd⟩ := List.nodup_cons.mp hinv.queueNd
  have hLnd : (dependentsOf g c).Nodup := Hdepd c
  have hzero_deps : ∀ x, x ∈ fc → dictGet deg x = some 0 →
      ∀ d ∈ depsOf g x, d ∈ fc → d ∈ order := by
    intro x hxfc hx0 d hd hdfc
    have hdg := hinv.degEq x hxfc
    rw [hx0] at hdg
    have heq : ((order.filter (· ∈ depsOf g x)).length : ℤ) = indegOf g fc x := by
      injection hdg with hdg
      omega
    apply filter_count_eq_all_mem order (depsOf g x) fc hinv.orderNd hinv.orderSub ?_ d hd hdfc
    unfold indegOf at heq
    exact_mod_cast heq
  have hdepc : ∀ d ∈ depsOf g c, d ∈ fc → d ∈ order := hzero_deps c hcfc hc0
  have hget : ∀ x ∈ fc, ∃ z, dictGet deg x = some z := fun x hx => ⟨_, hinv.degEq x hx⟩
  have hpget : ∀ (x : String) (z : ℤ), dictGet deg x = some z →
      dictGet (processDeps fc (dependentsOf g c) deg qrest).1 x
        = some (if x ∈ dependentsOf g c ∧ x ∈ fc then z - 1 else z) :=
    fun x z hz => processDeps_get fc _ deg qrest hLnd x z hz
  have hpq : (processDeps fc (dependentsOf g c) deg qrest).2
      = qrest ++ (dependentsOf g c).filter
          (fun d => decide (d ∈ fc) && decide ((dictGet deg d).getD 0 = 1)) :=
    processDeps_queue fc _ deg qrest hLnd
  have hpkeys : (processDeps fc (dependentsOf g c) deg qrest).1.map (·.1)
      = deg.map (·.1) := by
    apply processDeps_keys
    intro d _ hdfc
    rw [hinv.keys]
    exact hdfc
  have hfiltmem : ∀ x, x ∈ (dependentsOf g c).filter
      (fun d => decide (d ∈ fc) && decide ((dictGet deg d).getD 0 = 1)) ↔
      (x ∈ dependentsOf g c ∧ x ∈ fc ∧ dictGet deg x = some 1) := by
    intro x
    rw [List.mem_filter, Bool.and_eq_true]
    constructor
    · rintro ⟨hxL, hxfc, hx1⟩
      have hxfc2 := of_decide_eq_true hxfc
      have hx1b := of_decide_eq_true hx1
      obtain ⟨z, hz⟩ := hget x hxfc2
      rw [hz] at hx1b
      simp only [Option.getD_some] at hx1b
      exact ⟨hxL, hxfc2, by rw [hz, hx1b]⟩
    · rintro ⟨hxL, hxfc, hx1⟩
      refine ⟨hxL, decide_eq_true hxfc, decide_eq_true ?_⟩
      rw [hx1]
      rfl
  have hzero_notL : ∀ x, x ∈ fc → dictGet deg x = some 0 →
      x ∉ dependentsOf g c := by
    intro x hxfc hx0 hxL
    exact hcno (hzero_deps x hxfc hx0 c ((Hcons x c).mpr hxL) hcfc)
  have hcount2 : ∀ x, (((order ++ [c]).filter (· ∈ depsOf g x)).length : ℤ)
      = ((order.filter (· ∈ depsOf g x)).length : ℤ)
        + (if c ∈ depsOf g x then 1 else 0) := by
    intro x
    rw [List.filter_append]
    by_cases hcx : c ∈ depsOf g x
    · rw [if_pos hcx]
      have : List.filter (· ∈ depsOf g x) [c] = [c] := by
        simp [hcx]
      rw [this]
      push_cast
      simp
    · rw [if_neg hcx]
      have : List.filter (· ∈ depsOf g x) [c] = [] := by
        simp [hcx]
      rw [this]
      push_cast
      simp
  refine ⟨?_, ?_, ?_, ?_, ?_, ?_, ?_, ?_, ?_, ?_, ?_⟩
  · rw [hpkeys, hinv.keys]
  · intro x hxfc
    have hz := hinv.degEq x hxfc
    rw [hpget x _ hz, hcount2 x]
    by_cases hxL : x ∈ dependentsOf g c ∧ x ∈ fc
    · rw [if_pos hxL, if_pos ((Hcons x c).mpr hxL.1)]
      congr 1
      ring
    · rw [if_neg hxL]
      have hcx : ¬ c ∈ depsOf g x := fun hcx => hxL ⟨(Hcons x c).mp hcx, hxfc⟩
      rw [if_neg hcx]
      congr 1
  · intro x hx
    rcases List.mem_append.mp hx with h | h
    · exact hinv.orderSub x h
    · rw [List.mem_singleton] at h
      exact h ▸ hcfc
  · rw [List.nodup_append]
    refine ⟨hinv.orderNd, List.nodup_singleton c, ?_⟩
    intro a ha hb
    rw [List.mem_singleton] at hb
    exact hcno (hb ▸ ha)
  · intro x hx
    rw [hpq] at hx
    rcases List.mem_append.mp hx with h | h
    · exact hinv.queueSub x (List.mem_cons_of_mem _ h)
    · exact ((hfiltmem x).mp h).2.1
  · rw [hpq, List.nodup_append]
    refine ⟨hqnd, hLnd.filter _, ?_⟩
    intro a ha hb
    have h1 := ((hfiltmem a).mp hb).2.2
    have h0 := hinv.queueZero a (List.mem_cons_of_mem _ ha)
    rw [h0] at h1
    simp at h1
  · intro x hx
    rw [hpq] at hx
    intro hmem
    rcases List.mem_append.mp hmem with ho | ho
    · rcases List.mem_append.mp hx with h | h
      · exact hinv.queueDisj x (List.mem_cons_of_mem _ h) ho
      · have h1 := ((hfiltmem x).mp h).2.2
        have := hinv.orderNonpos x ho 1 h1
        omega
    · rw [List.mem_singleton] at ho
      rcases List.mem_append.mp hx with h | h
      · rw [ho] at h
        exact hcq h
      · have h1 := ((hfiltmem x).mp h).2.2
        rw [ho, hc0] at h1
        simp at h1
  · intro x hx
    rw [hpq] at hx
    rcases List.mem_append.mp hx with h | h
    · have hx0 := hinv.queueZero x (List.mem_cons_of_mem _ h)
      have hxfc := hinv.queueSub x (List.mem_cons_of_mem _ h)
      have hnL : ¬ (x ∈ dependentsOf g c ∧ x ∈ fc) :=
        fun hxx => hzero_notL x hxfc hx0 hxx.1
      rw [hpget x 0 hx0, if_neg hnL]
    · obtain ⟨hxL, hxfc, hx1⟩ := (hfiltmem x).mp h
      rw [hpget x 1 hx1, if_pos ⟨hxL, hxfc⟩]
      rfl
  · intro x hxfc hx0new
    have hz := hinv.degEq x hxfc
    rw [hpget x _ hz] at hx0new
    by_cases hxL : x ∈ dependentsOf g c ∧ x ∈ fc
    · rw [if_pos hxL] at hx0new
      injection hx0new with hx0new
      have hz1 : dictGet deg x = some 1 := by
        rw [hz]
        congr 1
        omega
      right
      rw [hpq]
      exact List.mem_append_right _ ((hfiltmem x).mpr ⟨hxL.1, hxL.2, hz1⟩)
    · rw [if_neg hxL] at hx0new
      injection hx0new with hx0new
      have hz0 : dictGet deg x = some 0 := by
        rw [hz, hx0new]
      rcases hinv.zeroIn x hxfc hz0 with h | h
      · exact Or.inl (List.mem_append_left _ h)
      · rcases List.mem_cons.mp h with h | h
        · exact Or.inl (List.mem_append_right _ (by simp [h]))
        · right
          rw [hpq]
          exact List.mem_append_left _ h
  · intro x hx z2 hz2
    rcases List.mem_append.mp hx with ho | ho
    · have hxfc := hinv.orderSub x ho
      have hz := hinv.degEq x hxfc
      have hold := hinv.orderNonpos x ho _ hz
      rw [hpget x _ hz] at hz2
      injection hz2 with hz2
      by_cases hxL : x ∈ dependentsOf g c ∧ x ∈ fc
      · rw [if_pos hxL] at hz2
        omega
      · rw [if_neg hxL] at hz2
        omega
    · rw [List.mem_singleton] at ho
      rw [ho] at hz2
      rw [hpget c 0 hc0] at hz2
      injection hz2 with hz2
      by_cases hxL : c ∈ dependentsOf g c ∧ c ∈ fc
      · rw [if_pos hxL] at hz2
        omega
      · rw [if_neg hxL] at hz2
        omega
  · intro i hi v hv hvfc
    by_cases hio : i < order.length
    · have hgeti : (order ++ [c]).get ⟨i, hi⟩ = order.get ⟨i, hio⟩ :=
        List.get_append i hio
      have htake : (order ++ [c]).take i = order.take i :=
        List.take_append_of_le_length (le_of_lt hio)
      rw [hgeti] at hv
      rw [htake]
      exact hinv.orderOK i hio v hv hvfc
    · have hieq : i = order.length := by
        simp only [List.length_append, List.length_singleton] at hi
        omega
      subst hieq
      have hgeti : (order ++ [c]).get ⟨order.length, hi⟩ = c := by
        simp
      have htake : (order ++ [c]).take order.length = order := by
        rw [List.take_append_of_le_length (le_refl _), List.take_length]
      rw [hgeti] at hv
      rw [htake]
      exact hdepc v hv hvfc

theorem kahnLoop_spec (g : DepGraph) (fc : List String)
    (Hdeps : ∀ c, (depsOf g c).Nodup)
    (Hdepd : ∀ c, (dependentsOf g c).Nodup)
    (Hcons : ∀ u v, v ∈ depsOf g u ↔ u ∈ dependentsOf g v) :
    ∀ (fuel : ℕ) (queue : List String) (deg : List (String × ℤ)) (order : List String),
    queue.length + potential deg ≤ fuel →
    KahnInv g fc deg queue order →
    KahnResult g fc (kahnLoop g fc fuel queue deg order) := by
  intro fuel
  induction fuel with
  | zero =>
    intro queue deg order hfuel hinv
    have hq : queue = [] := by
      cases queue with
      | nil => rfl
      | cons a b =>
        exfalso
        simp only [List.length_cons] at hfuel
        omega
    subst hq
    exact kahn_terminal g fc Hdeps deg order hinv
  | succ fuel ih =>
    intro queue deg order hfuel hinv
    cases queue with
    | nil => exact kahn_terminal g fc Hdeps deg order hinv
    | cons c qrest =>
      show KahnResult g fc (kahnLoop g fc fuel
        (processDeps fc (dependentsOf g c) deg qrest).2
        (processDeps fc (dependentsOf g c) deg qrest).1 (order ++ [c]))
      apply ih
      · have hm := processDeps_measure fc (dependentsOf g c) deg qrest
        simp only [List.length_cons] at hfuel
        omega
      · exact kahn_step g fc Hdeps Hdepd Hcons c qrest deg order hinv

theorem topological_order_empty (g : DepGraph) (h : (formulaCells g).isEmpty = true) :
    topological_order g = Except.ok [] := by
  simp only [topological_order, h, if_true]

theorem cycleFree_of_empty (g : DepGraph) (h : (formulaCells g).isEmpty = true) :
    cycleFree g = true := by
  rw [List.isEmpty_iff] at h
  simp [cycleFree, h]

theorem topological_order_eq (g : DepGraph) (R : List String)
    (hne : (formulaCells g).isEmpty = false)
    (hR : kahnLoop g (formulaCells g)
        (((formulaCells g).filter
            (fun c => (dictGet (initDeg g (formulaCells g)) c).getD 0 = 0)).length
          + potential (initDeg g (formulaCells g)))
        ((formulaCells g).filter
          (fun c => (dictGet (initDeg g (formulaCells g)) c).getD 0 = 0))
        (initDeg g (formulaCells g)) [] = R) :
    topological_order g =
      if R.length ≠ (formulaCells g).length
      then Except.error ((formulaCells g).filter (· ∉ R))
      else Except.ok R := by
  simp only [topological_order, hne, Bool.false_eq_true, if_false, hR]

theorem kahn_result_graph (g : DepGraph)
    (Hfc : (formulaCells g).Nodup)
    (Hdn : ∀ p ∈ g.dependencies, p.2.Nodup)
    (Hrn : ∀ p ∈ g.dependents, p.2.Nodup)
    (Hcons : consistentB g = true) :
    KahnResult g (formulaCells g)
      (kahnLoop g (formulaCells g)
        (((formulaCells g).filter
            (fun c => (dictGet (initDeg g (formulaCells g)) c).getD 0 = 0)).length
          + potential (initDeg g (formulaCells g)))
        ((formulaCells g).filter
          (fun c => (dictGet (initDeg g (formulaCells g)) c).getD 0 = 0))
        (initDeg g (formulaCells g)) []) := by
  apply kahnLoop_spec g (formulaCells g) (depsOf_nodup g Hdn) (dependentsOf_nodup g Hrn)
    (consistent_iff g Hcons)
  · exact le_refl _
  · exact kahn_init g (formulaCells g) Hfc

theorem mem_take_get (R : List String) (i : ℕ) (a : String) (h : a ∈ R.take i) :
    ∃ j, ∃ (hj : j < R.length), j < i ∧ R.get ⟨j, hj⟩ = a := by
  obtain ⟨n, hn⟩ := List.mem_iff_get.mp h
  have hlen := List.length_take i R
  have hn1 : n.1 < i := lt_of_lt_of_le n.2 (by rw [hlen]; exact inf_le_left)
  have hn2 : n.1 < R.length := lt_of_lt_of_le n.2 (by rw [hlen]; exact inf_le_right)
  refine ⟨n.1, hn2, hn1, ?_⟩
  have hgn : (R.take i).get n = a := hn
  rw [List.get_eq_getElem] at hgn ⊢
  rw [List.getElem_take] at hgn
  exact hgn

theorem respects_no_closed_subset (g : DepGraph) (fc R : List String)
    (hok : ∀ (i : ℕ) (hi : i < R.length), ∀ v, v ∈ depsOf g (R.get ⟨i, hi⟩) →
      v ∈ fc → v ∈ R.take i)
    (S : List String) (hS : ∀ c ∈ S, c ∈ R)
    (hclosed : ∀ c ∈ S, ∃ d, d ∈ depsOf g c ∧ d ∈ fc ∧ d ∈ S) :
    S = [] := by
  have key : ∀ i, ∀ (hi : i < R.length), R.get ⟨i, hi⟩ ∉ S := by
    intro i
    induction i using Nat.strong_induction_on with
    | _ i ih =>
      intro hi hmem
      obtain ⟨d, hd1, hd2, hd3⟩ := hclosed _ hmem
      have hdtake := hok i hi d hd1 hd2
      obtain ⟨j, hj, hjlt, hjd⟩ := mem_take_get R i d hdtake
      exact ih j hjlt hj (hjd.symm ▸ hd3)
  cases hS0 : S with
  | nil => rfl
  | cons a s =>
    have haS : a ∈ S := by rw [hS0]; exact List.mem_cons_self a s
    have haR := hS a haS
    obtain ⟨n, hgn⟩ := List.mem_iff_get.mp haR
    exact absurd (hgn.symm ▸ haS) (key n.1 n.2)

theorem dictGet_of_mem_keys {α : Type} : ∀ (m : List (String × α)) (k : String),
    k ∈ m.map (·.1) → ∃ v, dictGet m k = some v := by
  intro m
  induction m with
  | nil =>
    intro k hk
    simp at hk
  | cons p rest ih =>
    intro k hk
    obtain ⟨k2, w⟩ := p
    by_cases hpk : k2 = k
    · exact ⟨w, by simp [dictGet, hpk]⟩
    · rw [List.map_cons, List.mem_cons] at hk
      rcases hk with h | h
      · exact absurd h.symm hpk
      · obtain ⟨v, hv⟩ := ih k h
        exact ⟨v, by simp [dictGet, hpk, hv]⟩

theorem kahn_weak_step (fc : List String) (L : List String) (hLnd : L.Nodup)
    (c : String) (qrest : List String) (deg : List (String × ℤ)) (order : List String)
    (hinv : KahnWeakInv fc deg (c :: qrest) order) :
    KahnWeakInv fc (processDeps fc L deg qrest).1 (processDeps fc L deg qrest).2
      (order ++ [c]) := by
  have hcfc : c ∈ fc := hinv.queueSub c (List.mem_cons_self _ _)
  obtain ⟨hcq, hqnd⟩ := List.nodup_cons.mp hinv.queueNd
  have hcno : c ∉ order := hinv.queueDisj c (List.mem_cons_self _ _)
  have hpget := processDeps_get fc L deg qrest hLnd
  have hpq := processDeps_queue fc L deg qrest hLnd
  have hpkeys : (processDeps fc L deg qrest).1.map (·.1) = fc := by
    rw [processDeps_keys fc L deg qrest ?_, hinv.keys]
    intro d _ hdfc
    rw [hinv.keys]
    exact hdfc
  have hentry : ∀ x ∈ fc, ∃ z, dictGet deg x = some z := by
    intro x hx
    exact dictGet_of_mem_keys deg x (by rw [hinv.keys]; exact hx)
  have hfiltmem : ∀ x, x ∈ L.filter
      (fun d => decide (d ∈ fc) && decide ((dictGet deg d).getD 0 = 1))
      ↔ (x ∈ L ∧ x ∈ fc ∧ dictGet deg x = some 1) := by
    intro x
    rw [List.mem_filter]
    constructor
    · rintro ⟨hxL, hcond⟩
      rw [Bool.and_eq_true, decide_eq_true_eq, decide_eq_true_eq] at hcond
      refine ⟨hxL, hcond.1, ?_⟩
      obtain ⟨z, hz⟩ := hentry x hcond.1
      have h1 := hcond.2
      rw [hz] at h1 ⊢
      simp only [Option.getD_some] at h1
      rw [h1]
    · rintro ⟨hxL, hxfc, hx1⟩
      refine ⟨hxL, ?_⟩
      rw [Bool.and_eq_true, decide_eq_true_eq, decide_eq_true_eq]
      exact ⟨hxfc, by rw [hx1]; rfl⟩
  refine ⟨hpkeys, ?_, ?_, ?_, ?_, ?_, ?_, ?_⟩
  · intro x hx
    rcases List.mem_append.mp hx with h | h
    · exact hinv.orderSub x h
    · rw [List.mem_singleton] at h
      exact h ▸ hcfc
  · rw [List.nodup_append]
    refine ⟨hinv.orderNd, List.nodup_singleton c, ?_⟩
    intro a ha hb
    rw [List.mem_singleton] at hb
    exact hcno (hb ▸ ha)
  · intro x hx
    rw [hpq] at hx
    rcases List.mem_append.mp hx with h | h
    · exact hinv.queueSub x (List.mem_cons_of_mem _ h)
    · exact ((hfiltmem x).mp h).2.1
  · rw [hpq, List.nodup_append]
    refine ⟨hqnd, hLnd.filter _, ?_⟩
    intro a ha hb
    have h1 := ((hfiltmem a).mp hb).2.2
    have h2 := hinv.queueNonpos a (List.mem_cons_of_mem _ ha) 1 h1
    omega
  · intro x hx
    rw [hpq] at hx
    intro hmem
    rcases List.mem_append.mp hmem with ho | ho
    · rcases List.mem_append.mp hx with h | h
      · exact hinv.queueDisj x (List.mem_cons_of_mem _ h) ho
      · have h1 := ((hfiltmem x).mp h).2.2
        have h2 := hinv.orderNonpos x ho 1 h1
        omega
    · rw [List.mem_singleton] at ho
      rcases List.mem_append.mp hx with h | h
      · rw [ho] at h
        exact hcq h
      · have h1 := ((hfiltmem x).mp h).2.2
        rw [ho] at h1
        have h2 := hinv.queueNonpos c (List.mem_cons_self _ _) 1 h1
        omega
  · intro x hx z hz
    rw [hpq] at hx
    rcases List.mem_append.mp hx with h | h
    · obtain ⟨z0, hz0⟩ := hentry x (hinv.queueSub x (List.mem_cons_of_mem _ h))
      have hle := hinv.queueNonpos x (List.mem_cons_of_mem _ h) z0 hz0
      rw [hpget x z0 hz0] at hz
      injection hz with hz
      by_cases hxL : x ∈ L ∧ x ∈ fc
      · rw [if_pos hxL] at hz
        omega
      · rw [if_neg hxL] at hz
        omega
    · obtain ⟨hxinL, hxfc, hx1⟩ := (hfiltmem x).mp h
      have hand : x ∈ L ∧ x ∈ fc := ⟨hxinL, hxfc⟩
      rw [hpget x 1 hx1] at hz
      rw [if_pos hand] at hz
      injection hz with hz
      omega
  · intro x hx z hz
    rcases List.mem_append.mp hx with ho | ho
    · obtain ⟨z0, hz0⟩ := hentry x (hinv.orderSub x ho)
      have hle := hinv.orderNonpos x ho z0 hz0
      rw [hpget x z0 hz0] at hz
      injection hz with hz
      by_cases hxL : x ∈ L ∧ x ∈ fc
      · rw [if_pos hxL] at hz
        omega
      · rw [if_neg hxL] at hz
        omega
    · rw [List.mem_singleton] at ho
      obtain ⟨z0, hz0⟩ := hentry c hcfc
      have hle := hinv.queueNonpos c (List.mem_cons_self _ _) z0 hz0
      rw [ho] at hz
      rw [hpget c z0 hz0] at hz
      injection hz with hz
      by_cases hxL : c ∈ L ∧ c ∈ fc
      · rw [if_pos hxL] at hz
        omega
      · rw [if_neg hxL] at hz
        omega

theorem kahn_weak_init (g : DepGraph) (fc : List String) (Hfc : fc.Nodup) :
    KahnWeakInv fc (initDeg g fc)
      (fc.filter (fun c => (dictGet (initDeg g fc) c).getD 0 = 0)) [] := by
  refine ⟨?_, ?_, ?_, ?_, ?_, ?_, ?_, ?_⟩
  · simp [initDeg, List.map_map, Function.comp_def]
  · intro c hc
    simp at hc
  · exact List.nodup_nil
  · intro c hc
    exact List.mem_of_mem_filter hc
  · exact Hfc.filter _
  · intro c hc
    simp
  · intro c hc z hz
    rw [List.mem_filter] at hc
    have h0 := of_decide_eq_true hc.2
    rw [initDeg_get g fc Hfc c hc.1] at h0 hz
    simp only [Option.getD_some] at h0
    injection hz with hz
    omega
  · intro c hc
    simp at hc

theorem kahnLoop_weak (g : DepGraph) (fc : List String)
    (Hdepd : ∀ c, (dependentsOf g c).Nodup) :
    ∀ (fuel : ℕ) (queue : List String) (deg : List (String × ℤ)) (order : List String),
    KahnWeakInv fc deg queue order →
    (kahnLoop g fc fuel queue deg order).Nodup ∧
      ∀ c ∈ kahnLoop g fc fuel queue deg order, c ∈ fc := by
  intro fuel
  induction fuel with
  | zero =>
    intro queue deg order hinv
    exact ⟨hinv.orderNd, hinv.orderSub⟩
  | succ fuel ih =>
    intro queue deg order hinv
    cases queue with
    | nil => exact ⟨hinv.orderNd, hinv.orderSub⟩
    | cons c qrest =>
      show (kahnLoop g fc fuel (processDeps fc (dependentsOf g c) deg qrest).2
          (processDeps fc (dependentsOf g c) deg qrest).1 (order ++ [c])).Nodup ∧
        ∀ x ∈ kahnLoop g fc fuel (processDeps fc (dependentsOf g c) deg qrest).2
          (processDeps fc (dependentsOf g c) deg qrest).1 (order ++ [c]), x ∈ fc
      exact ih _ _ _ (kahn_weak_step fc (dependentsOf g c) (Hdepd c) c qrest deg order hinv)

theorem topological_order_ok_props (g : DepGraph)
    (Hfc : (formulaCells g).Nodup)
    (Hdn : ∀ p ∈ g.dependencies, p.2.Nodup)
    (Hrn : ∀ p ∈ g.dependents, p.2.Nodup)
    (Hcons : consistentB g = true)
    (order : List String) (h : topological_order g = Except.ok order) :
    order.Nodup ∧ (∀ c ∈ order, c ∈ formulaCells g) ∧ OrderRespects g order := by
  by_cases hemp : (formulaCells g).isEmpty = true
  · rw [topological_order_empty g hemp] at h
    injection h with h
    subst h
    refine ⟨List.nodup_nil, ?_, ?_⟩
    · intro c hc
      simp at hc
    · unfold OrderRespects
      intro i hi
      exact absurd hi (by simp)
  · have hne : (formulaCells g).isEmpty = false := by
      cases h2 : (formulaCells g).isEmpty
      · rfl
      · exact absurd h2 hemp
    obtain ⟨R, hRdef⟩ : ∃ R, kahnLoop g (formulaCells g)
        (((formulaCells g).filter
            (fun c => (dictGet (initDeg g (formulaCells g)) c).getD 0 = 0)).length
          + potential (initDeg g (formulaCells g)))
        ((formulaCells g).filter
          (fun c => (dictGet (initDeg g (formulaCells g)) c).getD 0 = 0))
        (initDeg g (formulaCells g)) [] = R := ⟨_, rfl⟩
    have htop := topological_order_eq g R hne hRdef
    have hres := kahn_result_graph g Hfc Hdn Hrn Hcons
    rw [hRdef] at hres
    rw [htop] at h
    by_cases hlen : R.length ≠ (formulaCells g).length
    · rw [if_pos hlen] at h
      simp at h
    · rw [if_neg hlen] at h
      injection h with h
      subst h
      refine ⟨hres.nd, hres.sub, ?_⟩
      unfold OrderRespects
      exact hres.ok

/-- C1: for every dependency graph - stale reverse edges included -
`topological_order` returns each formula cell at most once; additionally,
when the reverse mapping exactly inverts the forward mapping (as when each
cell is registered once), an acyclic formula-cell subgraph yields every
formula cell, each after all formula cells it depends on, and a cyclic one
fails listing formula cells that were not output, each blocked by a
formula-cell dependency also listed. -/
theorem c1_topological_order (g : DepGraph)
    (Hfc : (formulaCells g).Nodup)
    (Hdn : ∀ p ∈ g.dependencies, p.2.Nodup)
    (Hrn : ∀ p ∈ g.dependents, p.2.Nodup) :
    (∀ order, topological_order g = Except.ok order →
      order.Nodup ∧ ∀ c ∈ order, c ∈ formulaCells g) ∧
    (consistentB g = true →
      (cycleFree g = true →
        ∃ order, topological_order g = Except.ok order ∧
          (∀ c, c ∈ order ↔ c ∈ formulaCells g) ∧ OrderRespects g order) ∧
      (cycleFree g = false →
        ∃ missing, topological_order g = Except.error missing ∧ missing ≠ [] ∧
          missing.Nodup ∧ ∀ c ∈ missing, c ∈ formulaCells g ∧
            ∃ d, d ∈ depsOf g c ∧ d ∈ formulaCells g ∧ d ∈ missing)) := by
  constructor
  · intro order h
    by_cases hemp : (formulaCells g).isEmpty = true
    · rw [topological_order_empty g hemp] at h
      injection h with h
      subst h
      refine ⟨List.nodup_nil, ?_⟩
      intro c hc
      simp at hc
    · have hne : (formulaCells g).isEmpty = false := by
        cases h2 : (formulaCells g).isEmpty
        · rfl
        · exact absurd h2 hemp
      obtain ⟨R, hRdef⟩ : ∃ R, kahnLoop g (formulaCells g)
          (((formulaCells g).filter
              (fun c => (dictGet (initDeg g (formulaCells g)) c).getD 0 = 0)).length
            + potential (initDeg g (formulaCells g)))
          ((formulaCells g).filter
            (fun c => (dictGet (initDeg g (formulaCells g)) c).getD 0 = 0))
          (initDeg g (formulaCells g)) [] = R := ⟨_, rfl⟩
      have htop := topological_order_eq g R hne hRdef
      have hweak := kahnLoop_weak g (formulaCells g) (dependentsOf_nodup g Hrn)
        (((formulaCells g).filter
            (fun c => (dictGet (initDeg g (formulaCells g)) c).getD 0 = 0)).length
          + potential (initDeg g (formulaCells g)))
        ((formulaCells g).filter
          (fun c => (dictGet (initDeg g (formulaCells g)) c).getD 0 = 0))
        (initDeg g (formulaCells g)) []
        (kahn_weak_init g (formulaCells g) Hfc)
      rw [hRdef] at hweak
      rw [htop] at h
      by_cases hlen : R.length ≠ (formulaCells g).length
      · rw [if_pos hlen] at h
        simp at h
      · rw [if_neg hlen] at h
        injection h with h
        subst h
        exact hweak
  · intro Hcons
    by_cases hemp : (formulaCells g).isEmpty = true
    · have hfcnil : formulaCells g = [] := List.isEmpty_iff.mp hemp
      have hok := topological_order_empty g hemp
      have hcft := cycleFree_of_empty g hemp
      constructor
      · intro _
        refine ⟨[], hok, ?_, ?_⟩
        · intro c
          simp [hfcnil]
        · unfold OrderRespects
          intro i hi
          exact absurd hi (by simp)
      · intro hcf
        exact absurd (hcft.symm.trans hcf) (by simp)
    · have hne : (formulaCells g).isEmpty = false := by
        cases h2 : (formulaCells g).isEmpty
        · rfl
        · exact absurd h2 hemp
      obtain ⟨R, hRdef⟩ : ∃ R, kahnLoop g (formulaCells g)
          (((formulaCells g).filter
              (fun c => (dictGet (initDeg g (formulaCells g)) c).getD 0 = 0)).length
            + potential (initDeg g (formulaCells g)))
          ((formulaCells g).filter
            (fun c => (dictGet (initDeg g (formulaCells g)) c).getD 0 = 0))
          (initDeg g (formulaCells g)) [] = R := ⟨_, rfl⟩
      have htop := topological_order_eq g R hne hRdef
      have hres := kahn_result_graph g Hfc Hdn Hrn Hcons
      rw [hRdef] at hres
      have hsubperm : List.Subperm R (formulaCells g) :=
        hres.nd.subperm (fun a ha => hres.sub a ha)
      have hlenle : R.length ≤ (formulaCells g).length := hsubperm.length_le
      constructor
      · intro hcf
        have hlen : R.length = (formulaCells g).length := by
          by_contra hlen
          have hex : ∃ c ∈ formulaCells g, c ∉ R := by
            by_contra hall
            push_neg at hall
            have h1 : List.Subperm (formulaCells g) R :=
              Hfc.subperm (fun a ha => hall a ha)
            have h2 := h1.length_le
            omega
          obtain ⟨c0, hc0fc, hc0R⟩ := hex
          have hc0S : c0 ∈ (formulaCells g).filter (· ∉ R) :=
            List.mem_filter.mpr ⟨hc0fc, by simpa using hc0R⟩
          have hSsub : List.Sublist ((formulaCells g).filter (· ∉ R)) (formulaCells g) :=
            List.filter_sublist _
          have hcf' : ∀ S ∈ (formulaCells g).sublists,
              (S.isEmpty || S.any (fun c =>
                (depsOf g c).all (fun d => decide ¬ (d ∈ formulaCells g ∧ d ∈ S)))) = true := by
            rw [cycleFree] at hcf
            exact List.all_eq_true.mp hcf
          have hScf := hcf' ((formulaCells g).filter (· ∉ R)) (List.mem_sublists.mpr hSsub)
          rw [Bool.or_eq_true] at hScf
          rcases hScf with hSe | hSany
          · rw [List.isEmpty_iff] at hSe
            rw [hSe] at hc0S
            simp at hc0S
          · rw [List.any_eq_true] at hSany
            obtain ⟨c, hcS, hcall⟩ := hSany
            rw [List.all_eq_true] at hcall
            have hcfc : c ∈ formulaCells g := List.mem_of_mem_filter hcS
            have hcR : c ∉ R := by
              have h2 := (List.mem_filter.mp hcS).2
              simpa using h2
            obtain ⟨d, hd1, hd2, hd3⟩ := hres.blocked c hcfc hcR
            have hdS : d ∈ (formulaCells g).filter (· ∉ R) :=
              List.mem_filter.mpr ⟨hd2, by simpa using hd3⟩
            have h3 := hcall d hd1
            rw [decide_eq_true_eq] at h3
            exact h3 ⟨hd2, hdS⟩
        refine ⟨R, ?_, ?_, ?_⟩
        · rw [htop, if_neg (not_not_intro hlen)]
        · have hperm : List.Perm R (formulaCells g) :=
            hsubperm.perm_of_length_le (le_of_eq hlen.symm)
          intro c
          exact hperm.mem_iff
        · unfold OrderRespects
          exact hres.ok
      · intro hcf
        have hlen : R.length ≠ (formulaCells g).length := by
          intro hlen
          have hperm : List.Perm R (formulaCells g) :=
            hsubperm.perm_of_length_le (le_of_eq hlen.symm)
          have hall : cycleFree g = true := by
            rw [cycleFree]
            rw [List.all_eq_true]
            intro S hSmem
            rw [Bool.or_eq_true]
            by_cases hSe : S.isEmpty = true
            · exact Or.inl hSe
            · right
              rw [List.any_eq_true]
              by_contra hnone
              push_neg at hnone
              have hclosed : ∀ c ∈ S, ∃ d, d ∈ depsOf g c ∧ d ∈ formulaCells g ∧ d ∈ S := by
                intro c hc
                have h1 := hnone c hc
                by_contra hno
                push_neg at hno
                apply h1
                rw [List.all_eq_true]
                intro d hd
                rw [decide_eq_true_eq]
                intro h4 h5
                exact hno d hd h4 h5
              have hSR : ∀ c ∈ S, c ∈ R := by
                intro c hc
                have hcfc : c ∈ formulaCells g :=
                  (List.mem_sublists.mp hSmem).subset hc
                exact hperm.mem_iff.mpr hcfc
              have hSnil := respects_no_closed_subset g (formulaCells g) R hres.ok S hSR hclosed
              rw [hSnil] at hSe
              exact hSe rfl
          exact absurd (hall.symm.trans hcf) (by simp)
        refine ⟨(formulaCells g).filter (· ∉ R), ?_, ?_, Hfc.filter _, ?_⟩
        · rw [htop, if_pos hlen]
        · have hex : ∃ c ∈ formulaCells g, c ∉ R := by
            by_contra hall
            push_neg at hall
            have h1 : List.Subperm (formulaCells g) R :=
              Hfc.subperm (fun a ha => hall a ha)
            have h2 := h1.length_le
            omega
          obtain ⟨c0, hc0fc, hc0R⟩ := hex
          exact List.ne_nil_of_mem (List.mem_filter.mpr ⟨hc0fc, by simpa using hc0R⟩)
        · intro c hc
          have hcfc := List.mem_of_mem_filter hc
          have hcR : c ∉ R := by
            have h2 := (List.mem_filter.mp hc).2
            simpa using h2
          obtain ⟨d, hd1, hd2, hd3⟩ := hres.blocked c hcfc hcR
          exact ⟨hcfc, d, hd1, hd2, List.mem_filter.mpr ⟨hd2, by simpa using hd3⟩⟩

/-- Witness for C1 at the stale-edge graph `gCycleStale` itself (the
counterexample's graph): the dict-key and set representation invariants
hold there by computation, so the theorem - in particular its
unconditional at-most-once conjunct - applies to that graph. -/
theorem c1_topological_order_witness :
    (formulaCells gCycleStale).Nodup ∧
    (∀ p ∈ gCycleStale.dependencies, p.2.Nodup) ∧
    (∀ p ∈ gCycleStale.dependents, p.2.Nodup) ∧
    ((∀ order, topological_order gCycleStale = Except.ok order →
       order.Nodup ∧ ∀ c ∈ order, c ∈ formulaCells gCycleStale) ∧
     (consistentB gCycleStale = true →
       (cycleFree gCycleStale = true →
         ∃ order, topological_order gCycleStale = Except.ok order ∧
           (∀ c, c ∈ order ↔ c ∈ formulaCells gCycleStale) ∧
           OrderRespects gCycleStale order) ∧
       (cycleFree gCycleStale = false →
         ∃ missing, topological_order gCycleStale = Except.error missing ∧ missing ≠ [] ∧
           missing.Nodup ∧ ∀ c ∈ missing, c ∈ formulaCells gCycleStale ∧
             ∃ d, d ∈ depsOf gCycleStale c ∧ d ∈ formulaCells gCycleStale ∧
               d ∈ missing))) :=
  ⟨by decide, by decide, by decide,
   c1_topological_order gCycleStale (by decide) (by decide) (by decide)⟩

/-- C7, amended: two successive `calculate` calls with unchanged inputs -
the second running on the store the first wrote back - return the
identical result list and leave the store unchanged, provided no formula
consults the wall clock (`NOW`/`TODAY`) and the graph is consistently
registered with each formula's reads among its dependencies; the
clock-consulting builtins re-sample the wall clock at each evaluation, so
their outputs can differ across calls. -/
theorem c7_clock_free_determinism (g : DepGraph)
    (Hfc : (formulaCells g).Nodup)
    (Hdn : ∀ p ∈ g.dependencies, p.2.Nodup)
    (Hrn : ∀ p ∈ g.dependents, p.2.Nodup)
    (Hcons : consistentB g = true)
    (hclk : ∀ p ∈ g.formulas, usesClock p.2 = false)
    (hreads : ∀ p ∈ g.formulas, ∀ k ∈ readsOf p.2, k ∈ depsOf g p.1)
    (store s1 r1 : List (String × Arg)) (c1 c2 : Clock)
    (h1 : calculate g store c1 = Except.ok (s1, r1)) :
    calculate g s1 c2 = Except.ok (s1, r1) := by
  have hprops := topological_order_ok_props g Hfc Hdn Hrn Hcons
  unfold calculate at h1 ⊢
  revert h1
  cases hto : topological_order g with
  | error m =>
    intro h1
    simp at h1
  | ok order =>
    intro h1
    obtain ⟨hnd, hsub, hresp⟩ := hprops order hto
    injection h1 with h1
    have hclk2 : ∀ (i : ℕ) (hi : i < order.length),
        usesClock ((dictGet g.formulas (order.get ⟨i, hi⟩)).getD (.lit .empty)) = false := by
      intro i hi
      cases hg : dictGet g.formulas (order.get ⟨i, hi⟩) with
      | none => rfl
      | some f =>
        simp only [Option.getD_some]
        exact hclk (order.get ⟨i, hi⟩, f) (dictGet_mem _ _ _ hg)
    have hreads2 : ∀ (i : ℕ) (hi : i < order.length),
        ∀ k ∈ readsOf ((dictGet g.formulas (order.get ⟨i, hi⟩)).getD (.lit .empty)),
          k ∉ order.drop i := by
      intro i hi k hk
      cases hg : dictGet g.formulas (order.get ⟨i, hi⟩) with
      | none =>
        rw [hg] at hk
        simp [readsOf] at hk
      | some f =>
        rw [hg] at hk
        simp only [Option.getD_some] at hk
        have hdep : k ∈ depsOf g (order.get ⟨i, hi⟩) :=
          hreads (order.get ⟨i, hi⟩, f) (dictGet_mem _ _ _ hg) k hk
        intro hkdrop
        have hkorder : k ∈ order := List.drop_subset i order hkdrop
        have hkfc : k ∈ formulaCells g := hsub k hkorder
        have hktake : k ∈ order.take i := hresp i hi k hdep hkfc
        have hdisj := List.disjoint_take_drop hnd (le_refl i)
        exact hdisj hktake hkdrop
    obtain ⟨hfix, hres2⟩ := calcLoop_run g c1 c2 order store [] hnd hclk2 hreads2
    have hs1 : (calcLoop g c1 order store []).1 = s1 := by rw [h1]
    have hr1 : (calcLoop g c1 order store []).2 = r1 := by rw [h1]
    rw [hs1] at hfix hres2
    rw [hr1] at hres2
    have hrun2 := calcLoop_fixed g c2 order s1 [] hfix
    show Except.ok (calcLoop g c2 order s1 []) = Except.ok (s1, r1)
    rw [hrun2, ← hres2]

/-- C7, witness: the clock-free workbook `gLit` (one literal formula) run
at 1900-01-01 midnight, then run again one day later on the written-back
store: the second call reproduces the first call's output exactly. -/
theorem c7_clock_free_determinism_witness :
    calculate gLit [] clkA
      = Except.ok ([("Sheet1!A1", Arg.val (.num 5))], [("Sheet1!A1", Arg.val (.num 5))]) ∧
    calculate gLit [("Sheet1!A1", Arg.val (.num 5))] clkB
      = Except.ok ([("Sheet1!A1", Arg.val (.num 5))], [("Sheet1!A1", Arg.val (.num 5))]) :=
  ⟨by decide,
   c7_clock_free_determinism gLit (by decide) (by decide) (by decide) (by decide)
     (by decide) (by decide) [] _ _ clkA clkB (by decide)⟩

end Wolfxl
